import Mathlib

/-! RKE: Runge-Kutta-England ordinary differential equation solver

A shallow embedding of `rke.c` (`rke_init`, `rke_solve`) and of the structure
declared in `rke.h`, followed by theorems about it.

Modelling conventions.

* A C `double` is an exact rational number (`ℚ`): no rounding, no infinities,
  no NaN.  The decimal constants of the source are the rationals they denote.
  A second embedding of the body of `rke_solve`, in namespace `WithNaN`, lets
  the cells of the arrays be NaN as well.
* A C `int` is an unbounded integer (`Int`).
* A `double[]` is a function from cell index to content (`Vec`).  The array
  `variables[]` of the source is named `vars` (the source name is a reserved
  word).
* The problem function `eval_routine (t, v, d)` is a pure function of `t` and
  `v`: it yields `none` when the C routine returns 0 and `some d` (the
  derivatives it wrote) when it returns non-zero.
* `rke_solve` is a loop nest that need not terminate; it is embedded as a
  transition function `step` on control configurations, iterated `fuel` times.
-/

namespace RKE

/-- A `double[]` array: the content of each cell. -/
abbrev Vec := Nat → ℚ

/-- The C library function `fabs`. -/
def fabs (x : ℚ) : ℚ := if x < 0 then -x else x

/-- The reentrancy block `struct struct_rke_variables` of `rke.h`. -/
structure rke_variables where
  /-- Number of simultaneous equations -/
  n_equations : Int
  /-- Routine to compute derivatives -/
  eval_routine : ℚ → Vec → Option Vec
  /-- Minimum allowable step size -/
  minimum_step : ℚ
  /-- Maximum allowable step size -/
  maximum_step : ℚ
  /-- Current integration step size -/
  current_step : ℚ
  /-- Slope of maximum error per time unit -/
  error_slope : ℚ
  /-- Biais of maximum error per time unit -/
  error_biais : ℚ
  /-- Accumulated number of accepted steps -/
  accepted_steps : Int
  /-- Accumulated number of rejected steps -/
  rejected_steps : Int

/-- Initialize a new system of equations (`rke.c`, lines 36-56). -/
def rke_init (number : Int) (routine : ℚ → Vec → Option Vec) : rke_variables where
  n_equations := number
  eval_routine := routine
  minimum_step := 0.000001
  maximum_step := 1000000.0
  current_step := 1.0
  error_slope := 0.0000001
  error_biais := 0.00000001
  accepted_steps := 0
  rejected_steps := 0

/-- Content of a work array after `for (k = 0; k < n; ++k) a[k] = f k;`.
The work arrays come from `alloca`; their cells from `n` on are never written
and never read by `rke_solve`, and are taken to hold 0. -/
def fill (n : Int) (f : Nat → ℚ) : Vec := fun k => if (k : Int) < n then f k else 0

/-- Content of a caller array `a` after `for (k = 0; k < n; ++k) a[k] = f k;`. -/
def store (n : Int) (f : Nat → ℚ) (a : Vec) : Vec :=
  fun k => if (k : Int) < n then f k else a k

/-- Initial step size and direction (`rke.c`, lines 122-131). -/
def initial_step (var : rke_variables) (time aimed_time : ℚ) : ℚ :=
  let whole_step := aimed_time - time
  if whole_step > 0.0 then
    if whole_step > var.current_step then var.current_step else whole_step
  else
    if whole_step < - var.current_step then - var.current_step else whole_step

/-- The work arrays of one trial step, as they stand at line 226 of `rke.c`. -/
structure Stages where
  a1 : Vec
  a2 : Vec
  a3 : Vec
  a4 : Vec
  a5 : Vec
  a6 : Vec
  a7 : Vec
  vt : Vec
  v : Vec
  d : Vec

/-- The partial Runge-Kutta computation of one trial step (`rke.c`, lines
146-225); `none` when one of its seven derivative evaluations fails. -/
def stages (var : rke_variables) (time : ℚ) (vars dp : Vec) (whole_step : ℚ) :
    Option Stages :=
  let n := var.n_equations
  let quarter_step := 0.25 * whole_step
  let half_step := quarter_step + quarter_step
  let three_quarter_step := half_step + quarter_step
  let a1 := fill n (fun k => half_step * dp k)
  let v := fill n (fun k => vars k + 0.5 * a1 k)
  match var.eval_routine (time + quarter_step) v with
  | none => none
  | some d =>
  let a2 := fill n (fun k => half_step * d k)
  let v := fill n (fun k => vars k + 0.25 * (a1 k + a2 k))
  match var.eval_routine (time + quarter_step) v with
  | none => none
  | some d =>
  let a3 := fill n (fun k => half_step * d k)
  let v := fill n (fun k => vars k + (- a2 k + a3 k + a3 k))
  match var.eval_routine (time + half_step) v with
  | none => none
  | some d =>
  let a4 := fill n (fun k => half_step * d k)
  let vt := fill n (fun k => vars k + (a1 k + 4.0 * a3 k + a4 k) / 6.0)
  match var.eval_routine (time + half_step) vt with
  | none => none
  | some d =>
  let a5 := fill n (fun k => half_step * d k)
  let v := fill n (fun k => vt k + 0.5 * a5 k)
  match var.eval_routine (time + three_quarter_step) v with
  | none => none
  | some d =>
  let a6 := fill n (fun k => half_step * d k)
  let v := fill n (fun k => vt k + 0.25 * (a5 k + a6 k))
  match var.eval_routine (time + three_quarter_step) v with
  | none => none
  | some d =>
  let a7 := fill n (fun k => half_step * d k)
  let v := fill n (fun k => vars k
    + (- a1 k - 96.0 * a2 k + 92.0 * a3 k - 121.0 * a4 k
       + 144.0 * a5 k + 6.0 * a6 k - 12.0 * a7 k) / 6.0)
  match var.eval_routine (time + whole_step) v with
  | none => none
  | some d => some ⟨a1, a2, a3, a4, a5, a6, a7, vt, v, d⟩

/-- The `estimated_error` of component `k` (`rke.c`, lines 232-235). -/
def estimated_error (whole_step : ℚ) (s : Stages) (k : Nat) : ℚ :=
  let half_step := 0.25 * whole_step + 0.25 * whole_step
  fabs ((- s.a1 k + 4.0 * s.a3 k + 17.0 * s.a4 k
         - 23.0 * s.a5 k + 4.0 * s.a7 k - half_step * s.d k) / 90.0)

/-- The `allowable_error` of component `k` (`rke.c`, lines 236-237). -/
def allowable_error (var : rke_variables) (whole_step : ℚ) (s : Stages) (k : Nat) : ℚ :=
  fabs whole_step * (var.error_slope * fabs (s.vt k) + var.error_biais)

/-- The England error analysis loop (`rke.c`, lines 230-245), entered at index
`k` with `remaining` components left and the current `all_errors_small`;
yields `(within_tolerance, all_errors_small)`. -/
def error_loop (var : rke_variables) (whole_step : ℚ) (s : Stages) :
    Nat → Nat → Bool → Bool × Bool
  | 0, _, all_errors_small => (true, all_errors_small)
  | remaining + 1, k, all_errors_small =>
    if estimated_error whole_step s k > allowable_error var whole_step s k then
      (false, all_errors_small)
    else if estimated_error whole_step s k > 0.02 * allowable_error var whole_step s k then
      error_loop var whole_step s remaining (k + 1) false
    else
      error_loop var whole_step s remaining (k + 1) all_errors_small

/-- Lines 227-245 of `rke.c`: `(within_tolerance, all_errors_small)`. -/
def error_analysis (var : rke_variables) (whole_step : ℚ) (s : Stages) : Bool × Bool :=
  error_loop var whole_step s var.n_equations.toNat 0 true

/-- Control configurations of `rke_solve`. -/
inductive Config where
  /-- At the test of the outer `while` (line 117). -/
  | outer (var : rke_variables) (time : ℚ) (vars : Vec)
  /-- At the top of the body of the `do ... while` (line 146). -/
  | inner (var : rke_variables) (time : ℚ) (vars : Vec) (dp : Vec) (whole_step : ℚ)
  /-- After a `return`: the value returned and the memory left. -/
  | done (ret : Int) (var : rke_variables) (time : ℚ) (vars : Vec)

/-- Step size increment after an accepted step (`rke.c`, lines 266-271). -/
def grow (var : rke_variables) (all_errors_small : Bool) (whole_step : ℚ) : rke_variables :=
  if all_errors_small = true ∧ fabs whole_step = var.current_step then
    if 2 * var.current_step > var.maximum_step then
      { var with current_step := var.maximum_step }
    else
      { var with current_step := var.current_step * 2 }
  else var

/-- Step size decrement after a rejected step (`rke.c`, lines 282-285). -/
def shrink (var : rke_variables) : rke_variables :=
  if var.current_step < 2 * var.minimum_step then
    { var with current_step := var.minimum_step }
  else
    { var with current_step := var.current_step * 0.5 }

/-- The accepted branch of a trial step (`rke.c`, lines 248-271): complete the
Runge-Kutta step, commit `*time` and `variables[]`, and leave the
`do ... while`, whose condition `!within_tolerance` is then false. -/
def accept (var : rke_variables) (time : ℚ) (vars : Vec) (whole_step : ℚ) (s : Stages)
    (all_errors_small : Bool) : Config :=
  let n := var.n_equations
  let half_step := 0.25 * whole_step + 0.25 * whole_step
  let var := { var with accepted_steps := var.accepted_steps + 1 }
  let v := fill n (fun k => s.vt k + (- s.a6 k + s.a7 k + s.a7 k))
  match var.eval_routine (time + whole_step) v with
  | none => .done 0 var time vars
  | some d =>
    .outer (grow var all_errors_small whole_step) (time + whole_step)
      (store n (fun k => s.vt k + (s.a5 k + 4.0 * s.a7 k + half_step * d k) / 6.0) vars)

/-- The rejected branch of a trial step (`rke.c`, lines 276-292): retry with a
smaller step, the condition `!within_tolerance` being true, or give up. -/
def reject (var : rke_variables) (time : ℚ) (vars : Vec) (aimed_time : ℚ) (dp : Vec)
    (whole_step : ℚ) : Config :=
  let var := { var with rejected_steps := var.rejected_steps + 1 }
  if fabs whole_step > var.minimum_step then
    let var := shrink var
    .inner var time vars dp
      (if aimed_time > time then var.current_step else - var.current_step)
  else
    .done 0 var time vars

/-- One pass through the body of the `do ... while` (`rke.c`, lines 146-296). -/
def trial (var : rke_variables) (time : ℚ) (vars : Vec) (aimed_time : ℚ)
    (dp : Vec) (whole_step : ℚ) : Config :=
  match stages var time vars dp whole_step with
  | none => .done 0 var time vars
  | some s =>
    let within_tolerance := (error_analysis var whole_step s).1
    let all_errors_small := (error_analysis var whole_step s).2
    if within_tolerance = true then
      accept var time vars whole_step s all_errors_small
    else
      reject var time vars aimed_time dp whole_step

/-- One transition of `rke_solve`. -/
def step (aimed_time : ℚ) : Config → Config
  | .outer var time vars =>
    if 2 * fabs (aimed_time - time) > var.minimum_step then
      match var.eval_routine time vars with
      | none => .done 0 var time vars
      | some dp => .inner var time vars dp (initial_step var time aimed_time)
    else
      .done 1 var time vars
  | .inner var time vars dp whole_step =>
    trial var time vars aimed_time dp whole_step
  | .done ret var time vars => .done ret var time vars

/-- The configuration reached from `c` by `fuel` transitions. -/
def run (aimed_time : ℚ) : Nat → Config → Config
  | 0, c => c
  | fuel + 1, c => run aimed_time fuel (step aimed_time c)

/-- What a call of `rke_solve` leaves: the value returned, and the reentrancy
block, `*time` and `variables[]` on return. -/
structure Solved where
  ret : Int
  var : rke_variables
  time : ℚ
  vars : Vec

/-- The outcome recorded in a configuration, if it is a returned one. -/
def Config.result : Config → Option Solved
  | .done ret var time vars => some ⟨ret, var, time, vars⟩
  | _ => none

/-- Perform a consistent move of time in the system (`rke.c`, lines 76-299):
`some` outcome when the call returns within `fuel` transitions. -/
def rke_solve (fuel : Nat) (var : rke_variables) (time : ℚ) (vars : Vec)
    (aimed_time : ℚ) : Option Solved :=
  (run aimed_time fuel (.outer var time vars)).result

/-- The reentrancy block of a configuration. -/
def Config.var : Config → rke_variables
  | .outer var _ _ => var
  | .inner var _ _ _ _ => var
  | .done _ var _ _ => var

/-- The `*time` of a configuration. -/
def Config.time : Config → ℚ
  | .outer _ time _ => time
  | .inner _ time _ _ _ => time
  | .done _ _ time _ => time

/-- The `variables[]` of a configuration. -/
def Config.vars : Config → Vec
  | .outer _ _ vars => vars
  | .inner _ _ vars _ _ => vars
  | .done _ _ _ vars => vars

/-- The configuration is at the head of the outer loop. -/
def Config.isOuter : Config → Bool
  | .outer _ _ _ => true
  | _ => false

/-- The problem function of `example_2` (`example.c`, lines 100-111). -/
def problem_function_2 (_t : ℚ) (v : Vec) : Option Vec :=
  some (fun k => if k = 0 then - v 1 else if k = 1 then v 0 else 0)

/-- A problem function whose derivatives are all zero. -/
def zero_function (_t : ℚ) (_v : Vec) : Option Vec := some (fun _ => 0)

/-- A problem function that always reports failure. -/
def failing_function (_t : ℚ) (_v : Vec) : Option Vec := none

/-! ## Predicates used to state the properties -/

/-- The fields of the reentrancy block that `rke_solve` only reads. -/
def same_settings (var var1 : rke_variables) : Prop :=
  var1.n_equations = var.n_equations ∧ var1.eval_routine = var.eval_routine ∧
  var1.minimum_step = var.minimum_step ∧ var1.maximum_step = var.maximum_step ∧
  var1.error_slope = var.error_slope ∧ var1.error_biais = var.error_biais


/-- The step size bounds that `rke_solve` maintains. -/
def step_bounds (var : rke_variables) : Prop :=
  0 < var.minimum_step ∧ var.minimum_step ≤ var.current_step ∧
  var.current_step ≤ var.maximum_step


/-- The trial step from `(time, vars)` with initial derivatives `dp` and step
`whole_step` completes its stages and is rejected: some component's estimated
error exceeds its allowable error. -/
def rejected_trial (var : rke_variables) (time : ℚ) (vars dp : Vec) (whole_step : ℚ) : Prop :=
  ∃ s, stages var time vars dp whole_step = some s ∧
    ∃ k : Nat, (k : Int) < var.n_equations ∧
      estimated_error whole_step s k > allowable_error var whole_step s k


/-- One call of `rke_solve` made on a handle: the fuel it is given and the
time, variables and aimed time it is passed. -/
structure Call where
  fuel : Nat
  time : ℚ
  vars : Vec
  aimed_time : ℚ

/-- The reentrancy block left by a sequence of calls of `rke_solve` made on the
same handle, when each of them returns. -/
def solve_sequence : rke_variables → List Call → Option rke_variables
  | var, [] => some var
  | var, c :: cs =>
    match rke_solve c.fuel var c.time c.vars c.aimed_time with
    | none => none
    | some r => solve_sequence r.var cs

/-- The configuration is at the top of the body of the `do ... while`. -/
def Config.isInner : Config → Bool
  | .inner _ _ _ _ _ => true
  | _ => false

/-- The `whole_step` of a configuration inside the `do ... while`. -/
def Config.whole_step : Config → Option ℚ
  | .inner _ _ _ _ whole_step => some whole_step
  | _ => none

/-- The initial derivatives `dp` of a configuration inside the `do ... while`. -/
def Config.dp : Config → Vec
  | .inner _ _ _ dp _ => dp
  | _ => fun _ => 0

/-- What holds of the trial step of every configuration inside the
`do ... while` that a call reaches: the condition of the outer loop holds, and
`whole_step` is either the initial step of the outer iteration or the current
step size carrying the direction of `aimed_time`. -/
def trial_step_invariant (aimed_time : ℚ) : Config → Prop
  | .inner var time _ _ whole_step =>
    2 * fabs (aimed_time - time) > var.minimum_step ∧
    (whole_step = initial_step var time aimed_time ∨
      whole_step = if aimed_time > time then var.current_step else - var.current_step)
  | _ => True

/-- The pattern of `example_2` (`example.c`, lines 129-137): a call of
`rke_solve` from `(t0, v0)` to `t1`, then a call back to `t0` on the block,
time and variables that the first call left; the outcomes of the two calls. -/
def round_trip (fuel : Nat) (var : rke_variables) (t0 : ℚ) (v0 : Vec) (t1 : ℚ) :
    Option (Solved × Solved) :=
  match rke_solve fuel var t0 v0 t1 with
  | none => none
  | some r1 =>
    match rke_solve fuel r1.var r1.time r1.vars t0 with
    | none => none
    | some r2 => some (r1, r2)

/-! ## Concrete inputs -/

/-- A problem function that is zero except at time 2. -/
def spike_function (t : ℚ) (_v : Vec) : Option Vec := some (fun _ => if t = 2 then 1 else 0)

/-- A reentrancy block for one equation whose step size is pinned to 1 and
whose tolerances are zero. -/
def coarse (routine : ℚ → Vec → Option Vec) : rke_variables where
  n_equations := 1
  eval_routine := routine
  minimum_step := 1
  maximum_step := 1
  current_step := 1
  error_slope := 0
  error_biais := 0
  accepted_steps := 0
  rejected_steps := 0

/-- The outcome of `rke_solve` from time 0 to time 1 with zero derivatives. -/
def solved_zero : Solved :=
  (rke_solve 3 (rke_init 1 zero_function) 0 (fun _ => 3) 1).getD
    ⟨0, rke_init 1 zero_function, 0, fun _ => 3⟩

/-- The outcome of `rke_solve` from time 0 towards time 2 with `spike_function`
on the block `coarse`. -/
def solved_spike : Solved :=
  (rke_solve 4 (coarse spike_function) 0 (fun _ => 3) 2).getD
    ⟨1, coarse spike_function, 0, fun _ => 3⟩


/-- The block left by the call from time 0 to time 1 followed by the call back to
time 0, with zero derivatives, on a fresh block. -/
def block_forth_and_back : rke_variables :=
  (solve_sequence (rke_init 1 zero_function)
    [⟨3, 0, fun _ => 3, 1⟩, ⟨3, 1, fun _ => 3, 0⟩]).getD (rke_init 1 zero_function)

/-- The stages of the trial step from time 0 with step 1 and zero derivatives. -/
def stages_zero : Stages :=
  (stages (rke_init 1 zero_function) 0 (fun _ => 3) (fun _ => 0) 1).getD
    ⟨fun _ => 0, fun _ => 0, fun _ => 0, fun _ => 0, fun _ => 0, fun _ => 0, fun _ => 0,
     fun _ => 0, fun _ => 0, fun _ => 0⟩

/-- A problem function that is zero except at time 1/20. -/
def pulse_function (t : ℚ) (_v : Vec) : Option Vec :=
  some (fun _ => if t = 1 / 20 then 1 else 0)

/-- A problem function affine in time: the derivative is `2 + 3 * t`. -/
def ramp_function (t : ℚ) (_v : Vec) : Option Vec := some (fun _ => 2 + 3 * t)

/-- A reentrancy block for one equation with the given step sizes and error
biais, and error slope 0. -/
def block (routine : ℚ → Vec → Option Vec)
    (minimum_step maximum_step current_step error_biais : ℚ) : rke_variables where
  n_equations := 1
  eval_routine := routine
  minimum_step := minimum_step
  maximum_step := maximum_step
  current_step := current_step
  error_slope := 0
  error_biais := error_biais
  accepted_steps := 0
  rejected_steps := 0

/-- A problem function that is zero except at time 1/4, and that fails at time 1
when the variable is 1/3. -/
def picky_function (t : ℚ) (v : Vec) : Option Vec :=
  if t = 1 ∧ v 0 = 1 / 3 then none else some (fun _ => if t = 1 / 4 then 1 else 0)

/-- A problem function that is zero except at time 3/4. -/
def late_function (t : ℚ) (_v : Vec) : Option Vec :=
  some (fun _ => if t = 3 / 4 then 1 else 0)

/-- A problem function that is zero except at time 0. -/
def kick_function (t : ℚ) (_v : Vec) : Option Vec :=
  some (fun _ => if t = 0 then 1 else 0)

/-- The stages of the trial step from time 0 with step 2 and zero derivatives,
on a block with zero tolerances. -/
def stages_tie : Stages :=
  (stages (block zero_function 1 4 2 0) 0 (fun _ => 3) (fun _ => 0) 2).getD
    ⟨fun _ => 0, fun _ => 0, fun _ => 0, fun _ => 0, fun _ => 0, fun _ => 0, fun _ => 0,
     fun _ => 0, fun _ => 0, fun _ => 0⟩

/-- The problem function of the decay `dv/dt = -8 * v`, whose solution from
`v = 1` at time 0 is `exp (-8 * t)`. -/
def decay_function (_t : ℚ) (v : Vec) : Option Vec := some (fun _ => -8 * v 0)

/-- The outcomes of the two calls of `example_2`: from time 0 and variables
`(1, 0)` to time 3/2, and back to time 0. -/
def cos_sin_round_trip : Solved × Solved :=
  (round_trip 53 (rke_init 2 problem_function_2) 0 (fun k => if k = 0 then 1 else 0)
    (3 / 2)).getD
    (⟨0, rke_init 2 problem_function_2, 0, fun _ => 0⟩,
     ⟨0, rke_init 2 problem_function_2, 0, fun _ => 0⟩)

/-- The stages of the first trial step of the call with `picky_function`. -/
def stages_picky : Stages :=
  (stages (block picky_function 1 1 1 1) 0 (fun _ => 0) (fun _ => 0) 1).getD
    ⟨fun _ => 0, fun _ => 0, fun _ => 0, fun _ => 0, fun _ => 0, fun _ => 0, fun _ => 0,
     fun _ => 0, fun _ => 0, fun _ => 0⟩

/-! ## The same code over doubles that may be NaN

The embedding above takes every `double` to be a number.  In C the contents of
the arrays can also be NaN, which every comparison finds neither greater nor
smaller than anything.  The definitions below repeat the body of `rke_solve`
with array cells that may be NaN; times, step sizes and tolerances stay
rational numbers.  The problem function, which now reads and writes such
arrays, is passed beside the reentrancy block, whose `eval_routine` field is
not used here. -/

/-- A C `double` that may be NaN: `none` is NaN, `some q` the number `q`. -/
structure Dbl where
  val : Option ℚ
deriving DecidableEq

/-- The NaN. -/
def Dbl.nan : Dbl := ⟨none⟩

/-- The double holding the number `q`. -/
def Dbl.ofRat (q : ℚ) : Dbl := ⟨some q⟩

/-- C `x + y`: NaN when an operand is. -/
def Dbl.add (x y : Dbl) : Dbl := ⟨x.val.bind fun a => y.val.map fun b => a + b⟩

/-- C `x - y`: NaN when an operand is. -/
def Dbl.sub (x y : Dbl) : Dbl := ⟨x.val.bind fun a => y.val.map fun b => a - b⟩

/-- C `x * y`: NaN when an operand is. -/
def Dbl.mul (x y : Dbl) : Dbl := ⟨x.val.bind fun a => y.val.map fun b => a * b⟩

/-- C `x / y`: NaN when an operand is.  `rke_solve` divides by the constants
`6.0` and `90.0` only; a zero divisor, which it never has, yields NaN here. -/
def Dbl.div (x y : Dbl) : Dbl :=
  ⟨x.val.bind fun a => y.val.bind fun b => if b = 0 then none else some (a / b)⟩

/-- C `- x`: NaN when the operand is. -/
def Dbl.neg (x : Dbl) : Dbl := ⟨x.val.map fun a => - a⟩

/-- C `fabs (x)`: NaN when the operand is. -/
def Dbl.fabs (x : Dbl) : Dbl := ⟨x.val.map RKE.fabs⟩

/-- C `x > y`: false when an operand is NaN. -/
def Dbl.gt (x y : Dbl) : Bool :=
  match x.val, y.val with
  | some a, some b => decide (a > b)
  | _, _ => false

/-- C `x <= y`: false when an operand is NaN. -/
def Dbl.le (x y : Dbl) : Bool :=
  match x.val, y.val with
  | some a, some b => decide (a ≤ b)
  | _, _ => false

instance : Add Dbl := ⟨Dbl.add⟩

instance : Sub Dbl := ⟨Dbl.sub⟩

instance : Mul Dbl := ⟨Dbl.mul⟩

instance : Div Dbl := ⟨Dbl.div⟩

instance : Neg Dbl := ⟨Dbl.neg⟩

instance : OfScientific Dbl := ⟨fun m s e => Dbl.ofRat (OfScientific.ofScientific m s e)⟩

instance : Coe ℚ Dbl := ⟨Dbl.ofRat⟩

namespace WithNaN

/-- A `double[]` array whose cells may be NaN. -/
abbrev Vec := Nat → Dbl

/-- Content of a work array after `for (k = 0; k < n; ++k) a[k] = f k;`. -/
def fill (n : Int) (f : Nat → Dbl) : Vec := fun k => if (k : Int) < n then f k else Dbl.ofRat 0

/-- Content of a caller array `a` after `for (k = 0; k < n; ++k) a[k] = f k;`. -/
def store (n : Int) (f : Nat → Dbl) (a : Vec) : Vec :=
  fun k => if (k : Int) < n then f k else a k

/-- The work arrays of one trial step, as they stand at line 226 of `rke.c`. -/
structure Stages where
  a1 : Vec
  a2 : Vec
  a3 : Vec
  a4 : Vec
  a5 : Vec
  a6 : Vec
  a7 : Vec
  vt : Vec
  v : Vec
  d : Vec

/-- The partial Runge-Kutta computation of one trial step (`rke.c`, lines
146-225); `none` when one of its seven derivative evaluations fails. -/
def stages (var : rke_variables) (routine : ℚ → Vec → Option Vec) (time : ℚ)
    (vars dp : Vec) (whole_step : ℚ) : Option Stages :=
  let n := var.n_equations
  let quarter_step := 0.25 * whole_step
  let half_step := quarter_step + quarter_step
  let three_quarter_step := half_step + quarter_step
  let a1 := fill n (fun k => (half_step : Dbl) * dp k)
  let v := fill n (fun k => vars k + 0.5 * a1 k)
  match routine (time + quarter_step) v with
  | none => none
  | some d =>
  let a2 := fill n (fun k => (half_step : Dbl) * d k)
  let v := fill n (fun k => vars k + 0.25 * (a1 k + a2 k))
  match routine (time + quarter_step) v with
  | none => none
  | some d =>
  let a3 := fill n (fun k => (half_step : Dbl) * d k)
  let v := fill n (fun k => vars k + (- a2 k + a3 k + a3 k))
  match routine (time + half_step) v with
  | none => none
  | some d =>
  let a4 := fill n (fun k => (half_step : Dbl) * d k)
  let vt := fill n (fun k => vars k + (a1 k + 4.0 * a3 k + a4 k) / 6.0)
  match routine (time + half_step) vt with
  | none => none
  | some d =>
  let a5 := fill n (fun k => (half_step : Dbl) * d k)
  let v := fill n (fun k => vt k + 0.5 * a5 k)
  match routine (time + three_quarter_step) v with
  | none => none
  | some d =>
  let a6 := fill n (fun k => (half_step : Dbl) * d k)
  let v := fill n (fun k => vt k + 0.25 * (a5 k + a6 k))
  match routine (time + three_quarter_step) v with
  | none => none
  | some d =>
  let a7 := fill n (fun k => (half_step : Dbl) * d k)
  let v := fill n (fun k => vars k
    + (- a1 k - 96.0 * a2 k + 92.0 * a3 k - 121.0 * a4 k
       + 144.0 * a5 k + 6.0 * a6 k - 12.0 * a7 k) / 6.0)
  match routine (time + whole_step) v with
  | none => none
  | some d => some ⟨a1, a2, a3, a4, a5, a6, a7, vt, v, d⟩

/-- The `estimated_error` of component `k` (`rke.c`, lines 232-235). -/
def estimated_error (whole_step : ℚ) (s : Stages) (k : Nat) : Dbl :=
  let half_step := 0.25 * whole_step + 0.25 * whole_step
  Dbl.fabs ((- s.a1 k + 4.0 * s.a3 k + 17.0 * s.a4 k
         - 23.0 * s.a5 k + 4.0 * s.a7 k - (half_step : Dbl) * s.d k) / 90.0)

/-- The `allowable_error` of component `k` (`rke.c`, lines 236-237). -/
def allowable_error (var : rke_variables) (whole_step : ℚ) (s : Stages) (k : Nat) : Dbl :=
  (RKE.fabs whole_step : Dbl)
    * ((var.error_slope : Dbl) * Dbl.fabs (s.vt k) + (var.error_biais : Dbl))

/-- The England error analysis loop (`rke.c`, lines 230-245), entered at index
`k` with `remaining` components left and the current `all_errors_small`;
yields `(within_tolerance, all_errors_small)`. -/
def error_loop (var : rke_variables) (whole_step : ℚ) (s : Stages) :
    Nat → Nat → Bool → Bool × Bool
  | 0, _, all_errors_small => (true, all_errors_small)
  | remaining + 1, k, all_errors_small =>
    if Dbl.gt (estimated_error whole_step s k) (allowable_error var whole_step s k) = true then
      (false, all_errors_small)
    else if Dbl.gt (estimated_error whole_step s k)
        (0.02 * allowable_error var whole_step s k) = true then
      error_loop var whole_step s remaining (k + 1) false
    else
      error_loop var whole_step s remaining (k + 1) all_errors_small

/-- Lines 227-245 of `rke.c`: `(within_tolerance, all_errors_small)`. -/
def error_analysis (var : rke_variables) (whole_step : ℚ) (s : Stages) : Bool × Bool :=
  error_loop var whole_step s var.n_equations.toNat 0 true

/-- Control configurations of `rke_solve`, with arrays that may hold NaN. -/
inductive Config where
  /-- At the test of the outer `while` (line 117). -/
  | outer (var : rke_variables) (time : ℚ) (vars : Vec)
  /-- At the top of the body of the `do ... while` (line 146). -/
  | inner (var : rke_variables) (time : ℚ) (vars : Vec) (dp : Vec) (whole_step : ℚ)
  /-- After a `return`: the value returned and the memory left. -/
  | done (ret : Int) (var : rke_variables) (time : ℚ) (vars : Vec)

/-- The accepted branch of a trial step (`rke.c`, lines 248-271). -/
def accept (var : rke_variables) (routine : ℚ → Vec → Option Vec) (time : ℚ) (vars : Vec)
    (whole_step : ℚ) (s : Stages) (all_errors_small : Bool) : Config :=
  let n := var.n_equations
  let half_step := 0.25 * whole_step + 0.25 * whole_step
  let var := { var with accepted_steps := var.accepted_steps + 1 }
  let v := fill n (fun k => s.vt k + (- s.a6 k + s.a7 k + s.a7 k))
  match routine (time + whole_step) v with
  | none => .done 0 var time vars
  | some d =>
    .outer (grow var all_errors_small whole_step) (time + whole_step)
      (store n (fun k => s.vt k + (s.a5 k + 4.0 * s.a7 k + (half_step : Dbl) * d k) / 6.0)
        vars)

/-- The rejected branch of a trial step (`rke.c`, lines 276-292). -/
def reject (var : rke_variables) (time : ℚ) (vars : Vec) (aimed_time : ℚ) (dp : Vec)
    (whole_step : ℚ) : Config :=
  let var := { var with rejected_steps := var.rejected_steps + 1 }
  if RKE.fabs whole_step > var.minimum_step then
    let var := shrink var
    .inner var time vars dp
      (if aimed_time > time then var.current_step else - var.current_step)
  else
    .done 0 var time vars

/-- One pass through the body of the `do ... while` (`rke.c`, lines 146-296). -/
def trial (var : rke_variables) (routine : ℚ → Vec → Option Vec) (time : ℚ) (vars : Vec)
    (aimed_time : ℚ) (dp : Vec) (whole_step : ℚ) : Config :=
  match stages var routine time vars dp whole_step with
  | none => .done 0 var time vars
  | some s =>
    let within_tolerance := (error_analysis var whole_step s).1
    let all_errors_small := (error_analysis var whole_step s).2
    if within_tolerance = true then
      accept var routine time vars whole_step s all_errors_small
    else
      reject var time vars aimed_time dp whole_step

/-- One transition of `rke_solve`. -/
def step (routine : ℚ → Vec → Option Vec) (aimed_time : ℚ) : Config → Config
  | .outer var time vars =>
    if 2 * RKE.fabs (aimed_time - time) > var.minimum_step then
      match routine time vars with
      | none => .done 0 var time vars
      | some dp => .inner var time vars dp (initial_step var time aimed_time)
    else
      .done 1 var time vars
  | .inner var time vars dp whole_step =>
    trial var routine time vars aimed_time dp whole_step
  | .done ret var time vars => .done ret var time vars

/-- The configuration reached from `c` by `fuel` transitions. -/
def run (routine : ℚ → Vec → Option Vec) (aimed_time : ℚ) : Nat → Config → Config
  | 0, c => c
  | fuel + 1, c => run routine aimed_time fuel (step routine aimed_time c)

/-- The value returned, when the configuration is a returned one. -/
def Config.ret : Config → Option Int
  | .done ret _ _ _ => some ret
  | _ => none

/-- The reentrancy block of a configuration. -/
def Config.var : Config → rke_variables
  | .outer var _ _ => var
  | .inner var _ _ _ _ => var
  | .done _ var _ _ => var

/-- The `*time` of a configuration. -/
def Config.time : Config → ℚ
  | .outer _ time _ => time
  | .inner _ time _ _ _ => time
  | .done _ _ time _ => time

/-- The `variables[]` of a configuration. -/
def Config.vars : Config → Vec
  | .outer _ _ vars => vars
  | .inner _ _ vars _ _ => vars
  | .done _ _ _ vars => vars

/-- The configuration is at the head of the outer loop. -/
def Config.isOuter : Config → Bool
  | .outer _ _ _ => true
  | _ => false

/-- The problem function `d[0] = 0.0 / t; return 1;`: the derivative is 0,
except at time 0 where the quotient `0.0 / 0.0` is NaN. -/
def zero_over_time (t : ℚ) (_v : Vec) : Option Vec :=
  some (fun _ => if t = 0 then Dbl.nan else Dbl.ofRat 0)

/-- The stages of the trial step from time 0 with step 1 of `zero_over_time`. -/
def stages_nan : Stages :=
  (stages (rke_init 1 zero_function) zero_over_time 0 (fun _ => Dbl.ofRat 0)
    (fun _ => Dbl.nan) 1).getD
    ⟨fun _ => Dbl.nan, fun _ => Dbl.nan, fun _ => Dbl.nan, fun _ => Dbl.nan,
     fun _ => Dbl.nan, fun _ => Dbl.nan, fun _ => Dbl.nan, fun _ => Dbl.nan,
     fun _ => Dbl.nan, fun _ => Dbl.nan⟩

end WithNaN

/-! ## Basic facts about the embedding -/

theorem fabs_eq_abs (x : ℚ) : fabs x = |x| := by
  unfold fabs
  split
  · rename_i h; rw [abs_of_neg h]
  · rename_i h; rw [abs_of_nonneg (not_lt.mp h)]

theorem run_succ_right (aimed_time : ℚ) (n : Nat) (c : Config) :
    run aimed_time (n + 1) c = step aimed_time (run aimed_time n c) := by
  induction n generalizing c with
  | zero => rfl
  | succ n ih =>
    show run aimed_time (n + 1) (step aimed_time c) = _
    rw [ih]; rfl

theorem run_done (aimed_time : ℚ) (n : Nat) (ret : Int) (var : rke_variables) (time : ℚ)
    (vars : Vec) : run aimed_time n (.done ret var time vars) = .done ret var time vars := by
  induction n with
  | zero => rfl
  | succ n ih => exact ih

theorem run_add (aimed_time : ℚ) (m n : Nat) (c : Config) :
    run aimed_time (m + n) c = run aimed_time n (run aimed_time m c) := by
  induction m generalizing c with
  | zero => simp [run]
  | succ m ih =>
    have : m + 1 + n = (m + n) + 1 := by omega
    rw [this]
    show run aimed_time (m + n) (step aimed_time c) = run aimed_time n (run aimed_time m (step aimed_time c))
    exact ih _

/-- The five ways one pass through the `do ... while` body can end. -/
theorem trial_cases (var : rke_variables) (time : ℚ) (vars : Vec) (aimed_time : ℚ)
    (dp : Vec) (whole_step : ℚ) :
    trial var time vars aimed_time dp whole_step = .done 0 var time vars ∨
    trial var time vars aimed_time dp whole_step
      = .done 0 { var with accepted_steps := var.accepted_steps + 1 } time vars ∨
    (∃ small vars1, trial var time vars aimed_time dp whole_step
      = .outer (grow { var with accepted_steps := var.accepted_steps + 1 } small whole_step)
          (time + whole_step) vars1) ∨
    (fabs whole_step > var.minimum_step ∧
      trial var time vars aimed_time dp whole_step
      = .inner (shrink { var with rejected_steps := var.rejected_steps + 1 }) time vars dp
          (if aimed_time > time
            then (shrink { var with rejected_steps := var.rejected_steps + 1 }).current_step
            else - (shrink { var with rejected_steps := var.rejected_steps + 1 }).current_step)) ∨
    (¬ fabs whole_step > var.minimum_step ∧
      trial var time vars aimed_time dp whole_step
      = .done 0 { var with rejected_steps := var.rejected_steps + 1 } time vars) := by
  unfold trial
  cases hs : stages var time vars dp whole_step with
  | none => left; rfl
  | some s =>
    simp only
    by_cases hw : (error_analysis var whole_step s).1 = true
    · rw [if_pos hw]
      unfold accept
      simp only
      split
      · right; left; rfl
      · right; right; left; exact ⟨_, _, rfl⟩
    · rw [if_neg hw]
      unfold reject
      simp only
      by_cases hm : fabs whole_step > var.minimum_step
      · right; right; right; left
        exact ⟨hm, by rw [if_pos hm]⟩
      · right; right; right; right
        exact ⟨hm, by rw [if_neg hm]⟩

theorem result_eq_some {c : Config} {r : Solved} (h : c.result = some r) :
    c = .done r.ret r.var r.time r.vars := by
  cases c with
  | outer var time vars => simp [Config.result] at h
  | inner var time vars dp whole_step => simp [Config.result] at h
  | done ret var time vars =>
    simp only [Config.result, Option.some.injEq] at h
    subst h; rfl

/-- The ways one transition can change the reentrancy block. -/
theorem step_var_cases (aimed_time : ℚ) (c : Config) :
    (step aimed_time c).var = c.var ∨
    (step aimed_time c).var = { c.var with accepted_steps := c.var.accepted_steps + 1 } ∨
    (∃ small whole_step, (step aimed_time c).var
      = grow { c.var with accepted_steps := c.var.accepted_steps + 1 } small whole_step) ∨
    (step aimed_time c).var = shrink { c.var with rejected_steps := c.var.rejected_steps + 1 } ∨
    (step aimed_time c).var = { c.var with rejected_steps := c.var.rejected_steps + 1 } := by
  cases c with
  | outer var time vars =>
    left
    simp only [step]
    split
    · split <;> rfl
    · rfl
  | inner var time vars dp whole_step =>
    simp only [step, Config.var]
    rcases trial_cases var time vars aimed_time dp whole_step with h | h | ⟨sm, v1, h⟩ | ⟨_, h⟩ | ⟨_, h⟩
    · left; rw [h]
    · right; left; rw [h]
    · right; right; left; exact ⟨sm, whole_step, by rw [h]⟩
    · right; right; right; left; rw [h]
    · right; right; right; right; rw [h]
  | done ret var time vars => left; rfl

/-- A property of the reentrancy block kept by each of the updates that
`rke_solve` makes is kept by any number of transitions. -/
theorem run_var_invariant (P : rke_variables → Prop)
    (hacc : ∀ var, P var → P { var with accepted_steps := var.accepted_steps + 1 })
    (hrej : ∀ var, P var → P { var with rejected_steps := var.rejected_steps + 1 })
    (hgrow : ∀ var small whole_step, P var → P (grow var small whole_step))
    (hshrink : ∀ var, P var → P (shrink var))
    (aimed_time : ℚ) (n : Nat) (c : Config) (h : P c.var) :
    P (run aimed_time n c).var := by
  induction n generalizing c with
  | zero => exact h
  | succ n ih =>
    apply ih
    rcases step_var_cases aimed_time c with e | e | ⟨sm, ws, e⟩ | e | e <;> rw [e]
    · exact h
    · exact hacc _ h
    · exact hgrow _ _ _ (hacc _ h)
    · exact hshrink _ (hrej _ h)
    · exact hrej _ h

theorem rke_solve_var {fuel : Nat} {var : rke_variables} {time : ℚ} {vars : Vec}
    {aimed_time : ℚ} {r : Solved} (h : rke_solve fuel var time vars aimed_time = some r) :
    r.var = (run aimed_time fuel (.outer var time vars)).var := by
  unfold rke_solve at h
  rw [result_eq_some h]; rfl

/-- A non-zero return can only come from leaving the outer loop. -/
theorem run_success (aimed_time : ℚ) (n : Nat) (c : Config) (ret : Int)
    (var1 : rke_variables) (time1 : ℚ) (vars1 : Vec)
    (h : run aimed_time n c = .done ret var1 time1 vars1) (hret : ret ≠ 0) :
    c = .done ret var1 time1 vars1 ∨
    (ret = 1 ∧ ∃ i, i < n ∧ run aimed_time i c = .outer var1 time1 vars1 ∧
      ¬ 2 * fabs (aimed_time - time1) > var1.minimum_step) := by
  induction n generalizing c with
  | zero => left; exact h
  | succ n ih =>
    rcases ih (step aimed_time c) h with e | ⟨h1, i, hi, e, hg⟩
    · cases c with
      | outer var time vars =>
        right
        simp only [step] at e
        split at e
        · split at e
          · simp only [Config.done.injEq] at e
            exact absurd e.1.symm hret
          · simp at e
        · rename_i hg
          simp only [Config.done.injEq] at e
          obtain ⟨e1, e2, e3, e4⟩ := e
          subst e2 e3 e4
          exact ⟨e1.symm, 0, Nat.succ_pos n, rfl, hg⟩
      | inner var time vars dp whole_step =>
        exfalso
        simp only [step] at e
        rcases trial_cases var time vars aimed_time dp whole_step
          with h | h | ⟨sm, v1, h⟩ | ⟨_, h⟩ | ⟨_, h⟩ <;> rw [h] at e
        · simp only [Config.done.injEq] at e; exact hret e.1.symm
        · simp only [Config.done.injEq] at e; exact hret e.1.symm
        · simp at e
        · simp at e
        · simp only [Config.done.injEq] at e; exact hret e.1.symm
      | done ret0 var time vars => left; exact e
    · right
      exact ⟨h1, i + 1, Nat.succ_lt_succ hi, e, hg⟩

theorem grow_settings (var : rke_variables) (small : Bool) (whole_step : ℚ) :
    same_settings var (grow var small whole_step) := by
  unfold grow same_settings
  split
  · split <;> simp
  · simp

theorem shrink_settings (var : rke_variables) : same_settings var (shrink var) := by
  unfold shrink same_settings
  split <;> simp

theorem grow_counters (var : rke_variables) (small : Bool) (whole_step : ℚ) :
    (grow var small whole_step).accepted_steps = var.accepted_steps ∧
    (grow var small whole_step).rejected_steps = var.rejected_steps := by
  unfold grow
  split
  · split <;> simp
  · simp

theorem shrink_counters (var : rke_variables) :
    (shrink var).accepted_steps = var.accepted_steps ∧
    (shrink var).rejected_steps = var.rejected_steps := by
  unfold shrink
  split <;> simp

theorem run_frame (aimed_time : ℚ) (n : Nat) (c : Config) :
    same_settings c.var (run aimed_time n c).var := by
  apply run_var_invariant (fun v => same_settings c.var v)
  · intro var h; exact h
  · intro var h; exact h
  · intro var small ws h
    have g := grow_settings var small ws
    unfold same_settings at *
    obtain ⟨g1, g2, g3, g4, g5, g6⟩ := g
    obtain ⟨h1, h2, h3, h4, h5, h6⟩ := h
    exact ⟨g1.trans h1, g2.trans h2, g3.trans h3, g4.trans h4, g5.trans h5, g6.trans h6⟩
  · intro var h
    have g := shrink_settings var
    unfold same_settings at *
    obtain ⟨g1, g2, g3, g4, g5, g6⟩ := g
    obtain ⟨h1, h2, h3, h4, h5, h6⟩ := h
    exact ⟨g1.trans h1, g2.trans h2, g3.trans h3, g4.trans h4, g5.trans h5, g6.trans h6⟩
  · exact ⟨rfl, rfl, rfl, rfl, rfl, rfl⟩

theorem run_counters (aimed_time : ℚ) (n : Nat) (c : Config) :
    c.var.accepted_steps ≤ (run aimed_time n c).var.accepted_steps ∧
    c.var.rejected_steps ≤ (run aimed_time n c).var.rejected_steps := by
  apply run_var_invariant
    (fun v => c.var.accepted_steps ≤ v.accepted_steps ∧ c.var.rejected_steps ≤ v.rejected_steps)
  · intro var h
    exact ⟨by show _ ≤ var.accepted_steps + 1; omega, h.2⟩
  · intro var h
    exact ⟨h.1, by show _ ≤ var.rejected_steps + 1; omega⟩
  · intro var small ws h
    have g := grow_counters var small ws
    simp only [g.1, g.2]; exact h
  · intro var h
    have g := shrink_counters var
    simp only [g.1, g.2]; exact h
  · exact ⟨le_refl _, le_refl _⟩

theorem grow_bounds (var : rke_variables) (small : Bool) (whole_step : ℚ)
    (h : step_bounds var) : step_bounds (grow var small whole_step) := by
  obtain ⟨h0, h1, h2⟩ := h
  unfold grow step_bounds
  split
  · split
    · exact ⟨h0, le_trans h1 h2, le_refl _⟩
    · rename_i hg
      refine ⟨h0, ?_, ?_⟩
      · show var.minimum_step ≤ var.current_step * 2
        linarith
      · show var.current_step * 2 ≤ var.maximum_step
        have := not_lt.mp hg
        linarith
  · exact ⟨h0, h1, h2⟩

theorem shrink_bounds (var : rke_variables) (h : step_bounds var) :
    step_bounds (shrink var) := by
  obtain ⟨h0, h1, h2⟩ := h
  unfold shrink step_bounds
  split
  · exact ⟨h0, le_refl _, le_trans h1 h2⟩
  · rename_i hg
    have hg := not_lt.mp hg
    refine ⟨h0, ?_, ?_⟩
    · show var.minimum_step ≤ var.current_step * 0.5
      norm_num
      linarith
    · show var.current_step * 0.5 ≤ var.maximum_step
      norm_num
      linarith

theorem run_bounds (aimed_time : ℚ) (n : Nat) (c : Config) (h : step_bounds c.var) :
    step_bounds (run aimed_time n c).var := by
  apply run_var_invariant step_bounds
  · intro var h; exact h
  · intro var h; exact h
  · intro var small ws h; exact grow_bounds var small ws h
  · intro var h; exact shrink_bounds var h
  · exact h

/-- A transition that does not arrive at the head of the outer loop leaves
`*time` and `variables[]` as they were. -/
theorem step_keeps (aimed_time : ℚ) (c : Config)
    (h : (step aimed_time c).isOuter = false) :
    (step aimed_time c).time = c.time ∧ (step aimed_time c).vars = c.vars := by
  cases c with
  | outer var time vars =>
    simp only [step]
    split
    · split <;> exact ⟨rfl, rfl⟩
    · exact ⟨rfl, rfl⟩
  | inner var time vars dp whole_step =>
    simp only [step] at h ⊢
    rcases trial_cases var time vars aimed_time dp whole_step
      with e | e | ⟨sm, v1, e⟩ | ⟨_, e⟩ | ⟨_, e⟩ <;> rw [e] at h ⊢
    · exact ⟨rfl, rfl⟩
    · exact ⟨rfl, rfl⟩
    · simp [Config.isOuter] at h
    · exact ⟨rfl, rfl⟩
    · exact ⟨rfl, rfl⟩
  | done ret var time vars => exact ⟨rfl, rfl⟩

/-- The memory of a returned configuration is the memory of the last head of
the outer loop that the run went through. -/
theorem run_last_outer (aimed_time : ℚ) (n : Nat) (c : Config) (ret : Int)
    (var1 : rke_variables) (time1 : ℚ) (vars1 : Vec)
    (h : run aimed_time n c = .done ret var1 time1 vars1) :
    (∃ i var0, i < n ∧ run aimed_time i c = .outer var0 time1 vars1 ∧
      ∀ j, i ≤ j → j ≤ n →
        (run aimed_time j c).time = time1 ∧ (run aimed_time j c).vars = vars1 ∧
        (i < j → (run aimed_time j c).isOuter = false)) ∨
    (∀ j, j ≤ n →
        (run aimed_time j c).time = time1 ∧ (run aimed_time j c).vars = vars1 ∧
        (run aimed_time j c).isOuter = false) := by
  induction n generalizing c with
  | zero =>
    right
    intro j hj
    have : j = 0 := by omega
    subst this
    simp only [run] at h ⊢
    rw [h]; exact ⟨rfl, rfl, rfl⟩
  | succ n ih =>
    rcases ih (step aimed_time c) h with ⟨i, var0, hi, e, hall⟩ | hall
    · left
      refine ⟨i + 1, var0, Nat.succ_lt_succ hi, e, ?_⟩
      intro j hij hjn
      obtain ⟨j, rfl⟩ : ∃ j0, j = j0 + 1 := ⟨j - 1, by omega⟩
      have := hall j (by omega) (by omega)
      exact ⟨this.1, this.2.1, fun hlt => this.2.2 (by omega)⟩
    · have h0 := hall 0 (Nat.zero_le _)
      simp only [run] at h0
      have hk := step_keeps aimed_time c h0.2.2
      have ht : c.time = time1 := by rw [← hk.1]; exact h0.1
      have hv : c.vars = vars1 := by rw [← hk.2]; exact h0.2.1
      cases c with
      | outer var time vars =>
        left
        simp only [Config.time, Config.vars] at ht hv
        subst ht hv
        refine ⟨0, var, Nat.succ_pos n, rfl, ?_⟩
        intro j _ hjn
        cases j with
        | zero => exact ⟨rfl, rfl, fun hlt => absurd hlt (lt_irrefl 0)⟩
        | succ j =>
          have := hall j (by omega)
          exact ⟨this.1, this.2.1, fun _ => this.2.2⟩
      | inner var time vars dp whole_step =>
        right
        intro j hjn
        cases j with
        | zero => exact ⟨ht, hv, rfl⟩
        | succ j => exact hall j (by omega)
      | done ret0 var time vars =>
        right
        intro j hjn
        cases j with
        | zero => exact ⟨ht, hv, rfl⟩
        | succ j => exact hall j (by omega)

/-- A returned configuration stays as it is. -/
theorem run_after_done (aimed_time : ℚ) (n j : Nat) (c : Config) (ret : Int)
    (var1 : rke_variables) (time1 : ℚ) (vars1 : Vec)
    (h : run aimed_time n c = .done ret var1 time1 vars1) (hj : n ≤ j) :
    run aimed_time j c = .done ret var1 time1 vars1 := by
  obtain ⟨m, rfl⟩ : ∃ m, j = n + m := ⟨j - n, by omega⟩
  rw [run_add, h, run_done]

/-- The error analysis loop finds the step within tolerance exactly when no
component it goes through has an estimated error above the allowable one. -/
theorem error_loop_within (var : rke_variables) (whole_step : ℚ) (s : Stages)
    (remaining k : Nat) (small : Bool) :
    (error_loop var whole_step s remaining k small).1 = true ↔
      ∀ j, k ≤ j → j < k + remaining →
        ¬ estimated_error whole_step s j > allowable_error var whole_step s j := by
  induction remaining generalizing k small with
  | zero =>
    simp only [error_loop, true_iff]
    intro j h1 h2
    omega
  | succ n ih =>
    simp only [error_loop]
    by_cases h : estimated_error whole_step s k > allowable_error var whole_step s k
    · rw [if_pos h]
      constructor
      · intro hf; simp at hf
      · intro hall; exact absurd h (hall k (le_refl k) (by omega))
    · rw [if_neg h]
      have key : ∀ b, ((error_loop var whole_step s n (k + 1) b).1 = true ↔
          ∀ j, k ≤ j → j < k + (n + 1) →
            ¬ estimated_error whole_step s j > allowable_error var whole_step s j) := by
        intro b
        rw [ih]
        constructor
        · intro hall j h1 h2
          by_cases hjk : j = k
          · subst hjk; exact h
          · exact hall j (by omega) (by omega)
        · intro hall j h1 h2
          exact hall j (by omega) (by omega)
      split
      · exact key false
      · exact key small

theorem error_analysis_within (var : rke_variables) (whole_step : ℚ) (s : Stages) :
    (error_analysis var whole_step s).1 = true ↔
      ∀ k : Nat, (k : Int) < var.n_equations →
        ¬ estimated_error whole_step s k > allowable_error var whole_step s k := by
  unfold error_analysis
  rw [error_loop_within]
  constructor
  · intro h k hk
    exact h k (Nat.zero_le k) (by omega)
  · intro h j _ hj
    exact h j (by omega)

/-- With a problem function that never fails, the stages of a trial step are
all computed. -/
theorem stages_total (var : rke_variables) (time : ℚ) (vars dp : Vec) (whole_step : ℚ)
    (hnf : ∀ t v, var.eval_routine t v ≠ none) :
    ∃ s, stages var time vars dp whole_step = some s := by
  unfold stages
  simp only
  split
  · rename_i e; exact absurd e (hnf _ _)
  split
  · rename_i e; exact absurd e (hnf _ _)
  split
  · rename_i e; exact absurd e (hnf _ _)
  split
  · rename_i e; exact absurd e (hnf _ _)
  split
  · rename_i e; exact absurd e (hnf _ _)
  split
  · rename_i e; exact absurd e (hnf _ _)
  split
  · rename_i e; exact absurd e (hnf _ _)
  exact ⟨_, rfl⟩

theorem rejected_trial_iff (var : rke_variables) (time : ℚ) (vars dp : Vec) (whole_step : ℚ) :
    rejected_trial var time vars dp whole_step ↔
      ∃ s, stages var time vars dp whole_step = some s ∧
        (error_analysis var whole_step s).1 = false := by
  unfold rejected_trial
  constructor
  · rintro ⟨s, hs, k, hk, hgt⟩
    refine ⟨s, hs, ?_⟩
    cases hw : (error_analysis var whole_step s).1 with
    | false => rfl
    | true => exact absurd hgt ((error_analysis_within var whole_step s).mp hw k hk)
  · rintro ⟨s, hs, hw⟩
    refine ⟨s, hs, ?_⟩
    by_contra hne
    have : (error_analysis var whole_step s).1 = true := by
      rw [error_analysis_within]
      intro k hk hgt
      exact hne ⟨k, hk, hgt⟩
    rw [hw] at this
    exact Bool.false_ne_true this

/-- A rejected trial step ends in the rejected branch. -/
theorem trial_of_rejected (var : rke_variables) (time : ℚ) (vars : Vec) (aimed_time : ℚ)
    (dp : Vec) (whole_step : ℚ) (h : rejected_trial var time vars dp whole_step) :
    trial var time vars aimed_time dp whole_step
      = reject var time vars aimed_time dp whole_step := by
  obtain ⟨s, hs, hw⟩ := (rejected_trial_iff var time vars dp whole_step).mp h
  unfold trial
  rw [hs]
  simp only [hw]
  rfl

/-- With a problem function that never fails, a trial step returns only from
the rejected branch. -/
theorem trial_done_of_total (var : rke_variables) (time : ℚ) (vars : Vec) (aimed_time : ℚ)
    (dp : Vec) (whole_step : ℚ) (hnf : ∀ t v, var.eval_routine t v ≠ none)
    (ret : Int) (var1 : rke_variables) (time1 : ℚ) (vars1 : Vec)
    (h : trial var time vars aimed_time dp whole_step = .done ret var1 time1 vars1) :
    ret = 0 ∧ rejected_trial var time vars dp whole_step ∧
      ¬ fabs whole_step > var.minimum_step := by
  obtain ⟨s, hs⟩ := stages_total var time vars dp whole_step hnf
  unfold trial at h
  rw [hs] at h
  simp only at h
  by_cases hw : (error_analysis var whole_step s).1 = true
  · rw [if_pos hw] at h
    unfold accept at h
    simp only at h
    split at h
    · rename_i e; exact absurd e (hnf _ _)
    · simp at h
  · rw [if_neg hw] at h
    unfold reject at h
    simp only at h
    have hrej : rejected_trial var time vars dp whole_step :=
      (rejected_trial_iff var time vars dp whole_step).mpr
        ⟨s, hs, by simpa using hw⟩
    by_cases hm : fabs whole_step > var.minimum_step
    · rw [if_pos hm] at h; simp at h
    · rw [if_neg hm] at h
      simp only [Config.done.injEq] at h
      exact ⟨h.1.symm, hrej, hm⟩

/-- The transition by which a run arrives at a returned configuration. -/
theorem run_enters_done (aimed_time : ℚ) (n : Nat) (c : Config) (ret : Int)
    (var1 : rke_variables) (time1 : ℚ) (vars1 : Vec)
    (h : run aimed_time n c = .done ret var1 time1 vars1) :
    c = .done ret var1 time1 vars1 ∨
    ∃ i, i < n ∧ (run aimed_time i c).result = none ∧
      step aimed_time (run aimed_time i c) = .done ret var1 time1 vars1 := by
  induction n generalizing c with
  | zero => left; exact h
  | succ n ih =>
    rcases ih (step aimed_time c) h with e | ⟨i, hi, hr, e⟩
    · cases c with
      | outer var time vars => right; exact ⟨0, Nat.succ_pos n, rfl, e⟩
      | inner var time vars dp whole_step => right; exact ⟨0, Nat.succ_pos n, rfl, e⟩
      | done ret0 var time vars => left; exact e
    · right; exact ⟨i + 1, Nat.succ_lt_succ hi, hr, e⟩

theorem some_getD_of_isSome {α : Type} (o : Option α) (d : α) (h : o.isSome = true) :
    o = some (o.getD d) := by
  cases o with
  | none => simp at h
  | some a => rfl

theorem solved_zero_eq :
    rke_solve 3 (rke_init 1 zero_function) 0 (fun _ => 3) 1 = some solved_zero :=
  some_getD_of_isSome _ _ (by decide!)

theorem solved_spike_eq :
    rke_solve 4 (coarse spike_function) 0 (fun _ => 3) 2 = some solved_spike :=
  some_getD_of_isSome _ _ (by decide!)

theorem solved_zero_values : solved_zero.ret = 1 ∧ solved_zero.time = 1 ∧ solved_zero.vars 0 = 3
   ∧ solved_zero.var.accepted_steps = 1 ∧ solved_zero.var.current_step = 2 := by decide!

theorem solved_spike_values : solved_spike.ret = 0 ∧ solved_spike.time = 1 ∧ solved_spike.vars 0 = 3
   ∧ solved_spike.var.accepted_steps = 1 ∧ solved_spike.var.rejected_steps = 1 ∧ solved_spike.var.current_step = 1 := by decide!


/-- At a head of the outer loop with `aimed_time` equal to `*time` and a
non-negative `minimum_step`, the transition is the `return 1`. -/
theorem step_at_target (var : rke_variables) (time : ℚ) (vars : Vec)
    (hmin : 0 ≤ var.minimum_step) :
    step time (.outer var time vars) = .done 1 var time vars := by
  have hg : ¬ 2 * fabs (time - time) > var.minimum_step := by
    simp only [sub_self, fabs, lt_irrefl, if_false, mul_zero]
    exact not_lt.mpr hmin
  simp only [step]
  rw [if_neg hg]

/-- At a head of the outer loop whose condition holds, a failing evaluation of
the initial derivatives is the `return 0` of line 136. -/
theorem step_first_evaluation_fails (var : rke_variables) (time : ℚ) (vars : Vec)
    (aimed_time : ℚ) (hfail : var.eval_routine time vars = none)
    (hfar : 2 * fabs (aimed_time - time) > var.minimum_step) :
    step aimed_time (.outer var time vars) = .done 0 var time vars := by
  simp only [step]
  rw [if_pos hfar, hfail]

theorem block_forth_and_back_eq :
    solve_sequence (rke_init 1 zero_function)
      [⟨3, 0, fun _ => 3, 1⟩, ⟨3, 1, fun _ => 3, 0⟩] = some block_forth_and_back :=
  some_getD_of_isSome _ _ (by decide!)

theorem solve_sequence_counters (var : rke_variables) (calls : List Call)
    (var1 : rke_variables) (h : solve_sequence var calls = some var1) :
    var.accepted_steps ≤ var1.accepted_steps ∧ var.rejected_steps ≤ var1.rejected_steps := by
  induction calls generalizing var with
  | nil =>
    simp only [solve_sequence, Option.some.injEq] at h
    subst h
    exact ⟨le_refl _, le_refl _⟩
  | cons c cs ih =>
    simp only [solve_sequence] at h
    cases hr : rke_solve c.fuel var c.time c.vars c.aimed_time with
    | none => rw [hr] at h; simp at h
    | some r =>
      rw [hr] at h
      have h1 := run_counters c.aimed_time c.fuel (.outer var c.time c.vars)
      rw [← rke_solve_var hr] at h1
      have h2 := ih r.var h
      exact ⟨le_trans h1.1 h2.1, le_trans h1.2 h2.2⟩

theorem estimated_error_eq (whole_step : ℚ) (s : Stages) (k : Nat) :
    estimated_error whole_step s k
      = |(- s.a1 k + 4 * s.a3 k + 17 * s.a4 k - 23 * s.a5 k + 4 * s.a7 k
          - whole_step / 2 * s.d k) / 90| := by
  unfold estimated_error
  rw [fabs_eq_abs]
  congr 1
  norm_num
  ring

theorem allowable_error_eq (var : rke_variables) (whole_step : ℚ) (s : Stages) (k : Nat) :
    allowable_error var whole_step s k
      = |whole_step| * (var.error_slope * |s.vt k| + var.error_biais) := by
  unfold allowable_error
  rw [fabs_eq_abs, fabs_eq_abs]

/-- When the error analysis loop finds the step within tolerance, it leaves
`all_errors_small` set exactly when it was set on entry and no component it
goes through has an estimated error above 2% of the allowable one. -/
theorem error_loop_small (var : rke_variables) (whole_step : ℚ) (s : Stages)
    (remaining k : Nat) (small : Bool)
    (hw : (error_loop var whole_step s remaining k small).1 = true) :
    (error_loop var whole_step s remaining k small).2 = true ↔
      small = true ∧ ∀ j, k ≤ j → j < k + remaining →
        ¬ estimated_error whole_step s j > 0.02 * allowable_error var whole_step s j := by
  induction remaining generalizing k small with
  | zero =>
    simp only [error_loop]
    constructor
    · intro h; exact ⟨h, fun j h1 h2 => by omega⟩
    · intro h; exact h.1
  | succ n ih =>
    simp only [error_loop] at hw ⊢
    by_cases h : estimated_error whole_step s k > allowable_error var whole_step s k
    · rw [if_pos h] at hw; simp at hw
    · rw [if_neg h] at hw ⊢
      by_cases h2 : estimated_error whole_step s k > 0.02 * allowable_error var whole_step s k
      · rw [if_pos h2] at hw ⊢
        rw [ih (k + 1) false hw]
        constructor
        · intro hf; exact absurd hf.1 Bool.false_ne_true
        · intro hall; exact absurd h2 (hall.2 k (le_refl k) (by omega))
      · rw [if_neg h2] at hw ⊢
        rw [ih (k + 1) small hw]
        constructor
        · rintro ⟨hs, hall⟩
          refine ⟨hs, ?_⟩
          intro j h1 hj
          by_cases hjk : j = k
          · subst hjk; exact h2
          · exact hall j (by omega) (by omega)
        · rintro ⟨hs, hall⟩
          exact ⟨hs, fun j h1 hj => hall j (by omega) (by omega)⟩

theorem error_analysis_small (var : rke_variables) (whole_step : ℚ) (s : Stages)
    (hw : (error_analysis var whole_step s).1 = true) :
    (error_analysis var whole_step s).2 = true ↔
      ∀ k : Nat, (k : Int) < var.n_equations →
        ¬ estimated_error whole_step s k > 0.02 * allowable_error var whole_step s k := by
  unfold error_analysis at hw ⊢
  rw [error_loop_small var whole_step s _ 0 true hw]
  constructor
  · rintro ⟨_, h⟩ k hk
    exact h k (Nat.zero_le k) (by omega)
  · intro h
    exact ⟨rfl, fun j _ hj => h j (by omega)⟩

/-- The accepted branch adds one to `accepted_steps` and leaves
`rejected_steps`. -/
theorem accept_counters (var : rke_variables) (time : ℚ) (vars : Vec) (whole_step : ℚ)
    (s : Stages) (small : Bool) :
    (accept var time vars whole_step s small).var.accepted_steps = var.accepted_steps + 1 ∧
    (accept var time vars whole_step s small).var.rejected_steps = var.rejected_steps := by
  unfold accept
  simp only
  split
  · exact ⟨rfl, rfl⟩
  · simp only [Config.var]
    have g := grow_counters { var with accepted_steps := var.accepted_steps + 1 } small whole_step
    exact ⟨g.1, g.2⟩

/-- The rejected branch adds one to `rejected_steps` and leaves
`accepted_steps`. -/
theorem reject_counters (var : rke_variables) (time : ℚ) (vars : Vec) (aimed_time : ℚ)
    (dp : Vec) (whole_step : ℚ) :
    (reject var time vars aimed_time dp whole_step).var.accepted_steps = var.accepted_steps ∧
    (reject var time vars aimed_time dp whole_step).var.rejected_steps
      = var.rejected_steps + 1 := by
  unfold reject
  simp only
  split
  · simp only [Config.var]
    have g := shrink_counters { var with rejected_steps := var.rejected_steps + 1 }
    exact ⟨g.1, g.2⟩
  · exact ⟨rfl, rfl⟩

/-- The decision of a trial step whose stages are computed. -/
theorem trial_of_stages (var : rke_variables) (time : ℚ) (vars : Vec) (aimed_time : ℚ)
    (dp : Vec) (whole_step : ℚ) (s : Stages)
    (hs : stages var time vars dp whole_step = some s) :
    trial var time vars aimed_time dp whole_step =
      if (error_analysis var whole_step s).1 = true then
        accept var time vars whole_step s (error_analysis var whole_step s).2
      else reject var time vars aimed_time dp whole_step := by
  unfold trial
  rw [hs]

theorem stages_zero_eq :
    stages (rke_init 1 zero_function) 0 (fun _ => 3) (fun _ => 0) 1 = some stages_zero :=
  some_getD_of_isSome _ _ (by decide!)

theorem grow_current_step (var : rke_variables) (small : Bool) (whole_step : ℚ) :
    (grow var small whole_step).current_step =
      if small = true ∧ |whole_step| = var.current_step
      then min (2 * var.current_step) var.maximum_step else var.current_step := by
  unfold grow
  rw [fabs_eq_abs]
  by_cases hc : small = true ∧ |whole_step| = var.current_step
  · rw [if_pos hc, if_pos hc]
    by_cases hg : 2 * var.current_step > var.maximum_step
    · rw [if_pos hg, min_eq_right (le_of_lt hg)]
    · rw [if_neg hg, min_eq_left (not_lt.mp hg)]
      show var.current_step * 2 = 2 * var.current_step
      ring
  · rw [if_neg hc, if_neg hc]

/-- A trial step that arrives at the head of the outer loop was found within
tolerance, evaluated its final derivatives, and committed. -/
theorem trial_committed (var : rke_variables) (time : ℚ) (vars : Vec) (aimed_time : ℚ)
    (dp : Vec) (whole_step : ℚ) (s : Stages) (var1 : rke_variables) (time1 : ℚ) (vars1 : Vec)
    (hs : stages var time vars dp whole_step = some s)
    (hacc : trial var time vars aimed_time dp whole_step = .outer var1 time1 vars1) :
    (error_analysis var whole_step s).1 = true ∧
    var1 = grow { var with accepted_steps := var.accepted_steps + 1 }
      (error_analysis var whole_step s).2 whole_step ∧
    time1 = time + whole_step ∧
    ∃ d, var.eval_routine (time + whole_step)
        (fill var.n_equations (fun k => s.vt k + (- s.a6 k + s.a7 k + s.a7 k))) = some d ∧
      vars1 = store var.n_equations
        (fun k => s.vt k
          + (s.a5 k + 4.0 * s.a7 k + (0.25 * whole_step + 0.25 * whole_step) * d k) / 6.0)
        vars := by
  rw [trial_of_stages var time vars aimed_time dp whole_step s hs] at hacc
  by_cases hw : (error_analysis var whole_step s).1 = true
  · rw [if_pos hw] at hacc
    refine ⟨hw, ?_⟩
    unfold accept at hacc
    simp only at hacc
    split at hacc
    · simp at hacc
    · rename_i d hd
      simp only [Config.outer.injEq] at hacc
      exact ⟨hacc.1.symm, hacc.2.1.symm, d, hd, hacc.2.2.symm⟩
  · rw [if_neg hw] at hacc
    unfold reject at hacc
    simp only at hacc
    split at hacc <;> simp at hacc

theorem eq_outer_of_isOuter (c : Config) (h : c.isOuter = true) :
    c = .outer c.var c.time c.vars := by
  cases c with
  | outer var time vars => rfl
  | inner var time vars dp whole_step => simp [Config.isOuter] at h
  | done ret var time vars => simp [Config.isOuter] at h

theorem eq_inner_of_isInner (c : Config) (h : c.isInner = true) :
    c = .inner c.var c.time c.vars c.dp (c.whole_step.getD 0) := by
  cases c with
  | outer var time vars => simp [Config.isInner] at h
  | inner var time vars dp whole_step => rfl
  | done ret var time vars => simp [Config.isInner] at h

/-- A computable check that a trial step is rejected. -/
theorem rejected_trial_of_check (var : rke_variables) (time : ℚ) (vars dp : Vec)
    (whole_step : ℚ)
    (h : (stages var time vars dp whole_step).map
      (fun s => (error_analysis var whole_step s).1) = some false) :
    rejected_trial var time vars dp whole_step := by
  rw [rejected_trial_iff]
  cases hs : stages var time vars dp whole_step with
  | none => rw [hs] at h; simp at h
  | some s =>
    rw [hs] at h
    simp only [Option.map_some', Option.some.injEq] at h
    exact ⟨s, rfl, h⟩

theorem shrink_current_step (var : rke_variables) :
    (shrink var).current_step = max (var.current_step / 2) var.minimum_step := by
  unfold shrink
  split
  · rename_i h
    rw [max_eq_right]
    linarith
  · rename_i h
    have := not_lt.mp h
    rw [max_eq_left (by linarith)]
    show var.current_step * 0.5 = var.current_step / 2
    norm_num
    ring

theorem step_trial_step_invariant (aimed_time : ℚ) (c : Config)
    (h : trial_step_invariant aimed_time c) :
    trial_step_invariant aimed_time (step aimed_time c) := by
  cases c with
  | outer var time vars =>
    simp only [step]
    split
    · rename_i hg
      split
      · trivial
      · exact ⟨hg, Or.inl rfl⟩
    · trivial
  | inner var time vars dp whole_step =>
    simp only [step]
    rcases trial_cases var time vars aimed_time dp whole_step
      with e | e | ⟨sm, v1, e⟩ | ⟨_, e⟩ | ⟨_, e⟩ <;> rw [e]
    · trivial
    · trivial
    · trivial
    · refine ⟨?_, Or.inr rfl⟩
      rw [(shrink_settings _).2.2.1]
      exact h.1
    · trivial
  | done ret var time vars => trivial

theorem run_trial_step_invariant (aimed_time : ℚ) (n : Nat) (c : Config)
    (h : trial_step_invariant aimed_time c) :
    trial_step_invariant aimed_time (run aimed_time n c) := by
  induction n generalizing c with
  | zero => exact h
  | succ n ih => exact ih _ (step_trial_step_invariant aimed_time c h)

/-- Under the trial step invariant, with a non-negative minimum step and a
positive current step, the trial step points towards `aimed_time`. -/
theorem whole_step_direction (var : rke_variables) (time aimed_time whole_step : ℚ)
    (hmin : 0 ≤ var.minimum_step) (hcs : 0 < var.current_step)
    (hg : 2 * fabs (aimed_time - time) > var.minimum_step)
    (hws : whole_step = initial_step var time aimed_time ∨
      whole_step = if aimed_time > time then var.current_step else - var.current_step) :
    (aimed_time > time ∧ whole_step > 0) ∨ (aimed_time < time ∧ whole_step < 0) := by
  have hne : aimed_time - time ≠ 0 := by
    intro h0
    rw [h0] at hg
    simp only [fabs, lt_irrefl, if_false, mul_zero] at hg
    linarith
  rcases lt_or_gt_of_ne hne with hlt | hgt
  · right
    have h1 : aimed_time < time := by linarith
    refine ⟨h1, ?_⟩
    rcases hws with e | e
    · rw [e]
      unfold initial_step
      simp only
      have : ¬ aimed_time - time > 0.0 := by norm_num; linarith
      rw [if_neg this]
      split <;> linarith
    · rw [e, if_neg (by linarith)]
      linarith
  · left
    have h1 : aimed_time > time := by linarith
    refine ⟨h1, ?_⟩
    rcases hws with e | e
    · rw [e]
      unfold initial_step
      simp only
      have : aimed_time - time > 0.0 := by norm_num; linarith
      rw [if_pos this]
      split <;> linarith
    · rw [e, if_pos h1]
      exact hcs

/-- The stages of a trial step for a problem function that ignores the state
and is affine in time. -/
theorem stages_affine (var : rke_variables) (time : ℚ) (vars : Vec) (whole_step : ℚ)
    (c m : Vec) (haff : ∀ t v, var.eval_routine t v = some (fun k => c k + m k * t)) :
    ∃ s, stages var time vars (fun k => c k + m k * time) whole_step = some s ∧
      ∀ k : Nat, (k : Int) < var.n_equations →
        s.a1 k = whole_step / 2 * (c k + m k * time) ∧
        s.a3 k = whole_step / 2 * (c k + m k * (time + whole_step / 4)) ∧
        s.a4 k = whole_step / 2 * (c k + m k * (time + whole_step / 2)) ∧
        s.a5 k = whole_step / 2 * (c k + m k * (time + whole_step / 2)) ∧
        s.a6 k = whole_step / 2 * (c k + m k * (time + 3 * whole_step / 4)) ∧
        s.a7 k = whole_step / 2 * (c k + m k * (time + 3 * whole_step / 4)) ∧
        s.d k = c k + m k * (time + whole_step) ∧
        s.vt k = vars k + c k * (whole_step / 2)
          + m k * (time * (whole_step / 2) + (whole_step / 2) ^ 2 / 2) := by
  simp only [stages, haff]
  refine ⟨_, rfl, ?_⟩
  intro k hk
  simp only [fill, hk, if_true]
  refine ⟨?_, ?_, ?_, ?_, ?_, ?_, ?_, ?_⟩ <;> first | ring1 | ring_nf

/-- For a problem function that ignores the state and is affine in time, the
estimated error of every component is zero. -/
theorem estimated_error_affine (var : rke_variables) (time : ℚ) (vars : Vec)
    (whole_step : ℚ) (c m : Vec) (s : Stages)
    (haff : ∀ t v, var.eval_routine t v = some (fun k => c k + m k * t))
    (hs : stages var time vars (fun k => c k + m k * time) whole_step = some s)
    (k : Nat) (hk : (k : Int) < var.n_equations) :
    estimated_error whole_step s k = 0 := by
  obtain ⟨s1, hs1, hval⟩ := stages_affine var time vars whole_step c m haff
  rw [hs] at hs1
  simp only [Option.some.injEq] at hs1
  subst hs1
  obtain ⟨h1, h3, h4, h5, _, h7, hd, _⟩ := hval k hk
  rw [estimated_error_eq, h1, h3, h4, h5, h7, hd]
  rw [abs_eq_zero]
  ring

theorem fabs_nonneg (x : ℚ) : 0 ≤ fabs x := by
  rw [fabs_eq_abs]; exact abs_nonneg x

theorem allowable_error_nonneg (var : rke_variables) (whole_step : ℚ) (s : Stages) (k : Nat)
    (hslope : 0 ≤ var.error_slope) (hbiais : 0 ≤ var.error_biais) :
    0 ≤ allowable_error var whole_step s k := by
  unfold allowable_error
  exact mul_nonneg (fabs_nonneg _)
    (add_nonneg (mul_nonneg hslope (fabs_nonneg _)) hbiais)

/-- For a problem function that ignores the state and is affine in time, and
non-negative tolerances, a trial step is accepted and commits the exact
integral. -/
theorem trial_affine (var : rke_variables) (time : ℚ) (vars : Vec) (aimed_time : ℚ)
    (whole_step : ℚ) (c m : Vec)
    (haff : ∀ t v, var.eval_routine t v = some (fun k => c k + m k * t))
    (hslope : 0 ≤ var.error_slope) (hbiais : 0 ≤ var.error_biais) :
    ∃ small vars1,
      trial var time vars aimed_time (fun k => c k + m k * time) whole_step
        = .outer (grow { var with accepted_steps := var.accepted_steps + 1 } small whole_step)
            (time + whole_step) vars1 ∧
      (∀ k : Nat, (k : Int) < var.n_equations →
        vars1 k = vars k + c k * whole_step
          + m k * (time * whole_step + whole_step ^ 2 / 2)) ∧
      (∀ k : Nat, ¬ (k : Int) < var.n_equations → vars1 k = vars k) := by
  obtain ⟨s, hs, hval⟩ := stages_affine var time vars whole_step c m haff
  have hw : (error_analysis var whole_step s).1 = true := by
    rw [error_analysis_within]
    intro k hk
    rw [estimated_error_affine var time vars whole_step c m s haff hs k hk]
    exact not_lt.mpr (allowable_error_nonneg var whole_step s k hslope hbiais)
  rw [trial_of_stages var time vars aimed_time _ whole_step s hs, if_pos hw]
  unfold accept
  simp only [haff]
  refine ⟨_, _, rfl, ?_, ?_⟩
  · intro k hk
    obtain ⟨_, _, _, h5, _, h7, _, hvt⟩ := hval k hk
    simp only [store, hk, if_true]
    rw [h5, h7, hvt]
    ring
  · intro k hk
    simp only [store, hk, if_false]

/-- For a problem function that ignores the state and is affine in time, and
non-negative tolerances, an outer iteration commits its first trial step. -/
theorem outer_iteration_affine (var : rke_variables) (time : ℚ) (vars : Vec)
    (aimed_time : ℚ) (c m : Vec)
    (haff : ∀ t v, var.eval_routine t v = some (fun k => c k + m k * t))
    (hslope : 0 ≤ var.error_slope) (hbiais : 0 ≤ var.error_biais)
    (hg : 2 * fabs (aimed_time - time) > var.minimum_step) :
    ∃ small vars1,
      run aimed_time 2 (.outer var time vars)
        = .outer (grow { var with accepted_steps := var.accepted_steps + 1 } small
              (initial_step var time aimed_time))
            (time + initial_step var time aimed_time) vars1 ∧
      (∀ k : Nat, (k : Int) < var.n_equations →
        vars1 k = vars k + c k * initial_step var time aimed_time
          + m k * (time * initial_step var time aimed_time
              + initial_step var time aimed_time ^ 2 / 2)) ∧
      (∀ k : Nat, ¬ (k : Int) < var.n_equations → vars1 k = vars k) := by
  have h1 : run aimed_time 2 (.outer var time vars)
      = trial var time vars aimed_time (fun k => c k + m k * time)
          (initial_step var time aimed_time) := by
    show step aimed_time (step aimed_time (.outer var time vars)) = _
    simp only [step, if_pos hg, haff]
  rw [h1]
  exact trial_affine var time vars aimed_time _ c m haff hslope hbiais

/-- The initial step of an outer iteration either lands on `aimed_time` or
brings the time nearer by `current_step`. -/
theorem initial_step_progress (var : rke_variables) (time aimed_time : ℚ) (N : Nat)
    (hb : step_bounds var)
    (hd : |aimed_time - time| ≤ ((N + 1 : Nat) : ℚ) * var.minimum_step) :
    |aimed_time - (time + initial_step var time aimed_time)| ≤ (N : ℚ) * var.minimum_step := by
  obtain ⟨h0, h1, _⟩ := hb
  have hN : (0 : ℚ) ≤ (N : ℚ) * var.minimum_step :=
    mul_nonneg (Nat.cast_nonneg N) (le_of_lt h0)
  push_cast at hd
  unfold initial_step
  simp only
  by_cases hpos : aimed_time - time > 0.0
  · rw [if_pos hpos]
    have hpos1 : aimed_time - time > 0 := by norm_num at hpos; linarith
    rw [abs_of_pos hpos1] at hd
    by_cases hbig : aimed_time - time > var.current_step
    · rw [if_pos hbig]
      rw [abs_of_pos (by linarith)]
      linarith
    · rw [if_neg hbig]
      have : aimed_time - (time + (aimed_time - time)) = 0 := by ring
      rw [this, abs_zero]
      exact hN
  · rw [if_neg hpos]
    have hneg : aimed_time - time ≤ 0 := by norm_num at hpos; linarith
    rw [abs_of_nonpos hneg] at hd
    by_cases hbig : aimed_time - time < - var.current_step
    · rw [if_pos hbig]
      rw [abs_of_neg (by linarith)]
      linarith
    · rw [if_neg hbig]
      have : aimed_time - (time + (aimed_time - time)) = 0 := by ring
      rw [this, abs_zero]
      exact hN

/-- For a problem function that always yields the derivatives `c`, a call
entered within the step size bounds and with non-negative tolerances returns
1, with no rejected step, within half a minimum step of `aimed_time`, and with
variables on the straight line of slope `c`. -/
theorem solve_constant (aimed_time : ℚ) (c : Vec) (N : Nat) :
    ∀ (var : rke_variables) (time : ℚ) (vars : Vec),
      step_bounds var → 0 ≤ var.error_slope → 0 ≤ var.error_biais →
      (∀ t v, var.eval_routine t v = some (fun k => c k + (0 : ℚ) * t)) →
      |aimed_time - time| ≤ (N : ℚ) * var.minimum_step →
      ∃ fuel var1 time1 vars1,
        run aimed_time fuel (.outer var time vars) = .done 1 var1 time1 vars1 ∧
        var1.rejected_steps = var.rejected_steps ∧
        ¬ 2 * fabs (aimed_time - time1) > var.minimum_step ∧
        (¬ 2 * fabs (aimed_time - time) > var.minimum_step → time1 = time) ∧
        ∀ k : Nat, (k : Int) < var.n_equations → vars1 k = vars k + c k * (time1 - time) := by
  induction N with
  | zero =>
    intro var time vars hb _ _ _ hd
    have hg : ¬ 2 * fabs (aimed_time - time) > var.minimum_step := by
      rw [fabs_eq_abs]
      simp only [Nat.cast_zero, zero_mul] at hd
      have := hb.1
      linarith
    refine ⟨1, var, time, vars, ?_, rfl, hg, fun _ => rfl, ?_⟩
    · show step aimed_time (.outer var time vars) = _
      simp only [step, if_neg hg]
    · intro k _; ring
  | succ N ih =>
    intro var time vars hb hslope hbiais haff hd
    by_cases hg : 2 * fabs (aimed_time - time) > var.minimum_step
    · obtain ⟨small, vars1, hrun, hv, _⟩ := outer_iteration_affine var time vars aimed_time
        c (fun _ => 0) haff hslope hbiais hg
      have hset := grow_settings { var with accepted_steps := var.accepted_steps + 1 } small
        (initial_step var time aimed_time)
      obtain ⟨e1, e2, e3, _, e5, e6⟩ := hset
      have hcnt := grow_counters { var with accepted_steps := var.accepted_steps + 1 } small
        (initial_step var time aimed_time)
      have hb1 := grow_bounds { var with accepted_steps := var.accepted_steps + 1 } small
        (initial_step var time aimed_time) hb
      obtain ⟨fuel, var2, time2, vars2, hrun2, hrej, hg2, _, hv2⟩ :=
        ih _ (time + initial_step var time aimed_time) vars1 hb1
          (by rw [e5]; exact hslope) (by rw [e6]; exact hbiais)
          (by intro t v; rw [e2]; exact haff t v)
          (by rw [e3]; exact initial_step_progress var time aimed_time N hb hd)
      refine ⟨2 + fuel, var2, time2, vars2, ?_, ?_, ?_, ?_, ?_⟩
      · rw [run_add, hrun, hrun2]
      · rw [hrej, hcnt.2]
      · rw [e3] at hg2; exact hg2
      · intro h; exact absurd hg h
      · intro k hk
        rw [hv2 k (by rw [e1]; exact hk), hv k hk]
        ring
    · refine ⟨1, var, time, vars, ?_, rfl, hg, fun _ => rfl, ?_⟩
      · show step aimed_time (.outer var time vars) = _
        simp only [step, if_neg hg]
      · intro k _; ring

/-- For a problem function that ignores the state and is affine in time, a
committed trial step commits the exact integral. -/
theorem trial_affine_commit (var : rke_variables) (time : ℚ) (vars : Vec) (aimed_time : ℚ)
    (whole_step : ℚ) (c m : Vec) (var1 : rke_variables) (time1 : ℚ) (vars1 : Vec)
    (haff : ∀ t v, var.eval_routine t v = some (fun k => c k + m k * t))
    (hacc : trial var time vars aimed_time (fun k => c k + m k * time) whole_step
      = .outer var1 time1 vars1) :
    time1 = time + whole_step ∧
    ∀ k : Nat, (k : Int) < var.n_equations →
      vars1 k = vars k + c k * whole_step + m k * (time * whole_step + whole_step ^ 2 / 2) := by
  obtain ⟨s, hs, hval⟩ := stages_affine var time vars whole_step c m haff
  obtain ⟨_, _, ht, d, hd, hv⟩ :=
    trial_committed var time vars aimed_time _ whole_step s var1 time1 vars1 hs hacc
  refine ⟨ht, ?_⟩
  intro k hk
  rw [haff] at hd
  simp only [Option.some.injEq] at hd
  obtain ⟨_, _, _, h5, _, h7, _, hvt⟩ := hval k hk
  rw [hv, ← hd]
  simp only [store, hk, if_true]
  rw [h5, h7, hvt]
  ring

/-- With a non-negative current step, the initial step of an outer iteration
is at most the current step in magnitude, and is either of that magnitude or
the whole distance to `aimed_time`. -/
theorem initial_step_magnitude (var : rke_variables) (time aimed_time : ℚ)
    (hcs : 0 ≤ var.current_step) :
    fabs (initial_step var time aimed_time) = var.current_step ∨
    (initial_step var time aimed_time = aimed_time - time ∧
      fabs (initial_step var time aimed_time) < var.current_step) := by
  rw [fabs_eq_abs]
  unfold initial_step
  simp only
  by_cases hpos : aimed_time - time > 0.0
  · rw [if_pos hpos]
    have hpos1 : aimed_time - time > 0 := by norm_num at hpos; linarith
    by_cases hbig : aimed_time - time > var.current_step
    · rw [if_pos hbig]
      left
      exact abs_of_nonneg hcs
    · rw [if_neg hbig]
      rw [abs_of_pos hpos1]
      rcases lt_or_eq_of_le (not_lt.mp hbig) with h | h
      · right; exact ⟨rfl, h⟩
      · left; exact h
  · rw [if_neg hpos]
    have hneg : aimed_time - time ≤ 0 := by norm_num at hpos; linarith
    by_cases hbig : aimed_time - time < - var.current_step
    · rw [if_pos hbig]
      left
      rw [abs_neg]
      exact abs_of_nonneg hcs
    · rw [if_neg hbig]
      rw [abs_of_nonpos hneg]
      rcases lt_or_eq_of_le (not_lt.mp hbig) with h | h
      · right; exact ⟨rfl, by linarith⟩
      · left; linarith

/-- A rejected trial step of magnitude at most the minimum step is the
`return 0` of line 292. -/
theorem step_convergence_failure (var : rke_variables) (time : ℚ) (vars : Vec)
    (aimed_time : ℚ) (dp : Vec) (whole_step : ℚ)
    (hrej : rejected_trial var time vars dp whole_step)
    (hle : |whole_step| ≤ var.minimum_step) :
    step aimed_time (.inner var time vars dp whole_step)
      = .done 0 { var with rejected_steps := var.rejected_steps + 1 } time vars := by
  simp only [step]
  rw [trial_of_rejected var time vars aimed_time dp whole_step hrej]
  unfold reject
  simp only
  rw [if_neg]
  rw [fabs_eq_abs]
  exact not_lt.mpr hle

/-- Each transition adds at most one to `rejected_steps`. -/
theorem step_rejected_le (aimed_time : ℚ) (c : Config) :
    (step aimed_time c).var.rejected_steps ≤ c.var.rejected_steps + 1 := by
  rcases step_var_cases aimed_time c with e | e | ⟨sm, ws, e⟩ | e | e
  · have : (step aimed_time c).var.rejected_steps = c.var.rejected_steps := by rw [e]
    omega
  · have : (step aimed_time c).var.rejected_steps = c.var.rejected_steps := by rw [e]
    omega
  · have : (step aimed_time c).var.rejected_steps = c.var.rejected_steps := by
      rw [e, (grow_counters _ sm ws).2]
    omega
  · have : (step aimed_time c).var.rejected_steps = c.var.rejected_steps + 1 := by
      rw [e, (shrink_counters _).2]
    omega
  · have : (step aimed_time c).var.rejected_steps = c.var.rejected_steps + 1 := by rw [e]
    omega

/-- From a trial step of magnitude at most a current step that is at most
`2 ^ N` minimum steps, the `do ... while` is left within `N + 1` passes. -/
theorem inner_exits (aimed_time : ℚ) (N : Nat) :
    ∀ (var : rke_variables) (time : ℚ) (vars dp : Vec) (whole_step : ℚ),
      var.minimum_step > 0 → fabs whole_step ≤ var.current_step →
      var.current_step ≤ 2 ^ N * var.minimum_step →
      ∃ j, 1 ≤ j ∧ j ≤ N + 1 ∧
        (∀ i, i < j →
          (run aimed_time i (.inner var time vars dp whole_step)).isInner = true) ∧
        (run aimed_time j (.inner var time vars dp whole_step)).isInner = false ∧
        (run aimed_time j (.inner var time vars dp whole_step)).var.rejected_steps
          ≤ var.rejected_steps + j := by
  induction N with
  | zero =>
    intro var time vars dp whole_step hmin hws hN
    refine ⟨1, le_refl 1, le_refl 1, ?_, ?_, ?_⟩
    · intro i hi
      have : i = 0 := by omega
      subst this; rfl
    · show (step aimed_time (.inner var time vars dp whole_step)).isInner = false
      simp only [step]
      rcases trial_cases var time vars aimed_time dp whole_step
        with e | e | ⟨sm, v1, e⟩ | ⟨hgt, e⟩ | ⟨_, e⟩
      · rw [e]; rfl
      · rw [e]; rfl
      · rw [e]; rfl
      · exfalso
        simp only [pow_zero, one_mul] at hN
        linarith
      · rw [e]; rfl
    · exact step_rejected_le aimed_time (.inner var time vars dp whole_step)
  | succ N ih =>
    intro var time vars dp whole_step hmin hws hN
    rcases trial_cases var time vars aimed_time dp whole_step
      with e | e | ⟨sm, v1, e⟩ | ⟨hgt, e⟩ | ⟨_, e⟩
    case succ.inr.inr.inr.inl.intro =>
      have hcs1 : (shrink { var with rejected_steps := var.rejected_steps + 1 }).current_step
          = max (var.current_step / 2) var.minimum_step := shrink_current_step _
      have hmin1 : (shrink { var with rejected_steps := var.rejected_steps + 1 }).minimum_step
          = var.minimum_step := (shrink_settings _).2.2.1
      have hrej1 : (shrink { var with rejected_steps := var.rejected_steps + 1 }).rejected_steps
          = var.rejected_steps + 1 := (shrink_counters _).2
      have hpos1 : 0 < (shrink { var with rejected_steps := var.rejected_steps + 1 }).current_step := by
        rw [hcs1]; exact lt_of_lt_of_le hmin (le_max_right _ _)
      have hpow : (1 : ℚ) ≤ 2 ^ N := one_le_pow₀ (by norm_num)
      obtain ⟨j, hj1, hj2, hin, hout, hcount⟩ := ih
        (shrink { var with rejected_steps := var.rejected_steps + 1 }) time vars dp
        (if aimed_time > time
          then (shrink { var with rejected_steps := var.rejected_steps + 1 }).current_step
          else - (shrink { var with rejected_steps := var.rejected_steps + 1 }).current_step)
        (by rw [hmin1]; exact hmin)
        (by
          rw [fabs_eq_abs]
          split
          · rw [abs_of_pos hpos1]
          · rw [abs_neg, abs_of_pos hpos1])
        (by
          rw [hcs1, hmin1]
          apply max_le
          · rw [pow_succ] at hN
            linarith
          · nlinarith)
      refine ⟨j + 1, by omega, by omega, ?_, ?_, ?_⟩
      · intro i hi
        cases i with
        | zero => rfl
        | succ i =>
          show (run aimed_time i (step aimed_time (.inner var time vars dp whole_step))).isInner
            = true
          simp only [step]
          rw [e]
          exact hin i (by omega)
      · show (run aimed_time j (step aimed_time (.inner var time vars dp whole_step))).isInner
          = false
        simp only [step]
        rw [e]
        exact hout
      · show (run aimed_time j (step aimed_time (.inner var time vars dp whole_step))).var.rejected_steps
          ≤ _
        simp only [step]
        rw [e]
        rw [hrej1] at hcount
        omega
    all_goals
      refine ⟨1, le_refl 1, by omega, ?_, ?_, ?_⟩
      · intro i hi
        have : i = 0 := by omega
        subst this; rfl
      · show (step aimed_time (.inner var time vars dp whole_step)).isInner = false
        simp only [step]
        rw [e]; rfl
      · exact step_rejected_le aimed_time (.inner var time vars dp whole_step)

theorem stages_tie_eq :
    stages (block zero_function 1 4 2 0) 0 (fun _ => 3) (fun _ => 0) 2 = some stages_tie :=
  some_getD_of_isSome _ _ (by decide!)

/-- Over doubles that may be NaN, the error analysis loop finds the step within
tolerance exactly when no component it goes through has an estimated error
that compares greater than the allowable one. -/
theorem nan_error_loop_within (var : rke_variables) (whole_step : ℚ) (s : WithNaN.Stages)
    (remaining k : Nat) (small : Bool) :
    (WithNaN.error_loop var whole_step s remaining k small).1 = true ↔
      ∀ j, k ≤ j → j < k + remaining →
        Dbl.gt (WithNaN.estimated_error whole_step s j)
          (WithNaN.allowable_error var whole_step s j) = false := by
  induction remaining generalizing k small with
  | zero =>
    simp only [WithNaN.error_loop, true_iff]
    intro j h1 h2
    omega
  | succ n ih =>
    simp only [WithNaN.error_loop]
    by_cases h : Dbl.gt (WithNaN.estimated_error whole_step s k)
        (WithNaN.allowable_error var whole_step s k) = true
    · rw [if_pos h]
      constructor
      · intro hf; simp at hf
      · intro hall
        rw [hall k (le_refl k) (by omega)] at h
        exact absurd h Bool.false_ne_true
    · rw [if_neg h]
      have hk : Dbl.gt (WithNaN.estimated_error whole_step s k)
          (WithNaN.allowable_error var whole_step s k) = false := by
        simpa using h
      have key : ∀ b, ((WithNaN.error_loop var whole_step s n (k + 1) b).1 = true ↔
          ∀ j, k ≤ j → j < k + (n + 1) →
            Dbl.gt (WithNaN.estimated_error whole_step s j)
              (WithNaN.allowable_error var whole_step s j) = false) := by
        intro b
        rw [ih]
        constructor
        · intro hall j h1 h2
          by_cases hjk : j = k
          · subst hjk; exact hk
          · exact hall j (by omega) (by omega)
        · intro hall j h1 h2
          exact hall j (by omega) (by omega)
      split
      · exact key false
      · exact key small

theorem nan_error_analysis_within (var : rke_variables) (whole_step : ℚ)
    (s : WithNaN.Stages) :
    (WithNaN.error_analysis var whole_step s).1 = true ↔
      ∀ k : Nat, (k : Int) < var.n_equations →
        Dbl.gt (WithNaN.estimated_error whole_step s k)
          (WithNaN.allowable_error var whole_step s k) = false := by
  unfold WithNaN.error_analysis
  rw [nan_error_loop_within]
  constructor
  · intro h k hk
    exact h k (Nat.zero_le k) (by omega)
  · intro h j _ hj
    exact h j (by omega)

/-- Over doubles that may be NaN, when the error analysis loop finds the step
within tolerance, it leaves `all_errors_small` set exactly when it was set on
entry and no component it goes through has an estimated error that compares
greater than 2% of the allowable one. -/
theorem nan_error_loop_small (var : rke_variables) (whole_step : ℚ) (s : WithNaN.Stages)
    (remaining k : Nat) (small : Bool)
    (hw : (WithNaN.error_loop var whole_step s remaining k small).1 = true) :
    (WithNaN.error_loop var whole_step s remaining k small).2 = true ↔
      small = true ∧ ∀ j, k ≤ j → j < k + remaining →
        Dbl.gt (WithNaN.estimated_error whole_step s j)
          (0.02 * WithNaN.allowable_error var whole_step s j) = false := by
  induction remaining generalizing k small with
  | zero =>
    simp only [WithNaN.error_loop]
    constructor
    · intro h; exact ⟨h, fun j h1 h2 => by omega⟩
    · intro h; exact h.1
  | succ n ih =>
    simp only [WithNaN.error_loop] at hw ⊢
    by_cases h : Dbl.gt (WithNaN.estimated_error whole_step s k)
        (WithNaN.allowable_error var whole_step s k) = true
    · rw [if_pos h] at hw; simp at hw
    · rw [if_neg h] at hw ⊢
      by_cases h2 : Dbl.gt (WithNaN.estimated_error whole_step s k)
          (0.02 * WithNaN.allowable_error var whole_step s k) = true
      · rw [if_pos h2] at hw ⊢
        rw [ih (k + 1) false hw]
        constructor
        · intro hf; exact absurd hf.1 Bool.false_ne_true
        · intro hall
          rw [hall.2 k (le_refl k) (by omega)] at h2
          exact absurd h2 Bool.false_ne_true
      · rw [if_neg h2] at hw ⊢
        have hk2 : Dbl.gt (WithNaN.estimated_error whole_step s k)
            (0.02 * WithNaN.allowable_error var whole_step s k) = false := by
          simpa using h2
        rw [ih (k + 1) small hw]
        constructor
        · rintro ⟨hs, hall⟩
          refine ⟨hs, ?_⟩
          intro j h1 hj
          by_cases hjk : j = k
          · subst hjk; exact hk2
          · exact hall j (by omega) (by omega)
        · rintro ⟨hs, hall⟩
          exact ⟨hs, fun j h1 hj => hall j (by omega) (by omega)⟩

theorem nan_error_analysis_small (var : rke_variables) (whole_step : ℚ) (s : WithNaN.Stages)
    (hw : (WithNaN.error_analysis var whole_step s).1 = true) :
    (WithNaN.error_analysis var whole_step s).2 = true ↔
      ∀ k : Nat, (k : Int) < var.n_equations →
        Dbl.gt (WithNaN.estimated_error whole_step s k)
          (0.02 * WithNaN.allowable_error var whole_step s k) = false := by
  unfold WithNaN.error_analysis at hw ⊢
  rw [nan_error_loop_small var whole_step s _ 0 true hw]
  constructor
  · rintro ⟨_, h⟩ k hk
    exact h k (Nat.zero_le k) (by omega)
  · intro h
    exact ⟨rfl, fun j _ hj => h j (by omega)⟩

theorem nan_accept_counters (var : rke_variables) (routine : ℚ → WithNaN.Vec → Option WithNaN.Vec)
    (time : ℚ) (vars : WithNaN.Vec) (whole_step : ℚ) (s : WithNaN.Stages) (small : Bool) :
    (WithNaN.accept var routine time vars whole_step s small).var.accepted_steps
      = var.accepted_steps + 1 ∧
    (WithNaN.accept var routine time vars whole_step s small).var.rejected_steps
      = var.rejected_steps := by
  unfold WithNaN.accept
  simp only
  split
  · exact ⟨rfl, rfl⟩
  · simp only [WithNaN.Config.var]
    have g := grow_counters { var with accepted_steps := var.accepted_steps + 1 } small whole_step
    exact ⟨g.1, g.2⟩

theorem nan_reject_counters (var : rke_variables) (time : ℚ) (vars : WithNaN.Vec)
    (aimed_time : ℚ) (dp : WithNaN.Vec) (whole_step : ℚ) :
    (WithNaN.reject var time vars aimed_time dp whole_step).var.accepted_steps
      = var.accepted_steps ∧
    (WithNaN.reject var time vars aimed_time dp whole_step).var.rejected_steps
      = var.rejected_steps + 1 := by
  unfold WithNaN.reject
  simp only
  split
  · simp only [WithNaN.Config.var]
    have g := shrink_counters { var with rejected_steps := var.rejected_steps + 1 }
    exact ⟨g.1, g.2⟩
  · exact ⟨rfl, rfl⟩

theorem nan_trial_of_stages (var : rke_variables)
    (routine : ℚ → WithNaN.Vec → Option WithNaN.Vec) (time : ℚ) (vars : WithNaN.Vec)
    (aimed_time : ℚ) (dp : WithNaN.Vec) (whole_step : ℚ) (s : WithNaN.Stages)
    (hs : WithNaN.stages var routine time vars dp whole_step = some s) :
    WithNaN.trial var routine time vars aimed_time dp whole_step =
      if (WithNaN.error_analysis var whole_step s).1 = true then
        WithNaN.accept var routine time vars whole_step s
          (WithNaN.error_analysis var whole_step s).2
      else WithNaN.reject var time vars aimed_time dp whole_step := by
  unfold WithNaN.trial
  rw [hs]

/-- Over doubles that may be NaN, a trial step that arrives at the head of the
outer loop was found within tolerance and committed. -/
theorem nan_trial_committed (var : rke_variables)
    (routine : ℚ → WithNaN.Vec → Option WithNaN.Vec) (time : ℚ) (vars : WithNaN.Vec)
    (aimed_time : ℚ) (dp : WithNaN.Vec) (whole_step : ℚ) (s : WithNaN.Stages)
    (var1 : rke_variables) (time1 : ℚ) (vars1 : WithNaN.Vec)
    (hs : WithNaN.stages var routine time vars dp whole_step = some s)
    (hacc : WithNaN.trial var routine time vars aimed_time dp whole_step
      = .outer var1 time1 vars1) :
    (WithNaN.error_analysis var whole_step s).1 = true ∧
    var1 = grow { var with accepted_steps := var.accepted_steps + 1 }
      (WithNaN.error_analysis var whole_step s).2 whole_step := by
  rw [nan_trial_of_stages var routine time vars aimed_time dp whole_step s hs] at hacc
  by_cases hw : (WithNaN.error_analysis var whole_step s).1 = true
  · rw [if_pos hw] at hacc
    refine ⟨hw, ?_⟩
    unfold WithNaN.accept at hacc
    simp only at hacc
    split at hacc
    · simp at hacc
    · simp only [WithNaN.Config.outer.injEq] at hacc
      exact hacc.1.symm
  · rw [if_neg hw] at hacc
    unfold WithNaN.reject at hacc
    simp only at hacc
    split at hacc <;> simp at hacc

theorem stages_nan_eq :
    WithNaN.stages (rke_init 1 zero_function) WithNaN.zero_over_time 0
      (fun _ => Dbl.ofRat 0) (fun _ => Dbl.nan) 1 = some WithNaN.stages_nan :=
  some_getD_of_isSome _ _ (by decide!)

theorem nan_eq_outer_of_isOuter (c : WithNaN.Config) (h : c.isOuter = true) :
    c = .outer c.var c.time c.vars := by
  cases c with
  | outer var time vars => rfl
  | inner var time vars dp whole_step => simp [WithNaN.Config.isOuter] at h
  | done ret var time vars => simp [WithNaN.Config.isOuter] at h

theorem round_trip_eq_some (fuel : Nat) (var : rke_variables) (t0 : ℚ) (v0 : Vec) (t1 : ℚ)
    (p : Solved × Solved) (h : round_trip fuel var t0 v0 t1 = some p) :
    rke_solve fuel var t0 v0 t1 = some p.1 ∧
    rke_solve fuel p.1.var p.1.time p.1.vars t0 = some p.2 := by
  unfold round_trip at h
  cases h1 : rke_solve fuel var t0 v0 t1 with
  | none => rw [h1] at h; simp at h
  | some r1 =>
    rw [h1] at h
    simp only at h
    cases h2 : rke_solve fuel r1.var r1.time r1.vars t0 with
    | none => rw [h2] at h; simp at h
    | some r2 =>
      rw [h2] at h
      simp only [Option.some.injEq] at h
      subst h
      exact ⟨rfl, h2⟩

theorem cos_sin_round_trip_eq :
    round_trip 53 (rke_init 2 problem_function_2) 0 (fun k => if k = 0 then 1 else 0) (3 / 2)
      = some cos_sin_round_trip :=
  some_getD_of_isSome _ _ (by decide!)

theorem stages_picky_eq :
    stages (block picky_function 1 1 1 1) 0 (fun _ => 0) (fun _ => 0) 1 = some stages_picky :=
  some_getD_of_isSome _ _ (by decide!)

theorem cos_sin_round_trip_values :
    cos_sin_round_trip.1.ret = 1 ∧ cos_sin_round_trip.1.time = 3 / 2 ∧
    cos_sin_round_trip.2.ret = 1 ∧ cos_sin_round_trip.2.time = 0 ∧
    fabs (cos_sin_round_trip.2.vars 0 - 1) ≤ 1 / 1000000 ∧
    fabs (cos_sin_round_trip.2.vars 1 - 0) ≤ 1 / 1000000 := by
  decide!

/-! ## The claims -/

/-- C1: whenever `rke_solve` returns success (a non-zero value), the time it
leaves satisfies `2 * |aimed_time - time| ≤ minimum_step`; and success is
returned on no other path than leaving the outer loop: the value returned is 1
and the state returned is that of a head of the outer loop whose condition
`2 * fabs (aimed_time - *time) > minimum_step` is false. -/
theorem rke_solve_success_within_half_minimum_step (fuel : Nat) (var : rke_variables)
    (time : ℚ) (vars : Vec) (aimed_time : ℚ) (r : Solved)
    (h : rke_solve fuel var time vars aimed_time = some r) (hret : r.ret ≠ 0) :
    2 * |aimed_time - r.time| ≤ r.var.minimum_step ∧ r.ret = 1 ∧
    ∃ i, i < fuel ∧ run aimed_time i (.outer var time vars) = .outer r.var r.time r.vars ∧
      ¬ 2 * fabs (aimed_time - r.time) > r.var.minimum_step := by
  unfold rke_solve at h
  have hd := result_eq_some h
  rcases run_success aimed_time fuel _ r.ret r.var r.time r.vars hd hret
    with e | ⟨h1, i, hi, e, hg⟩
  · simp at e
  · refine ⟨?_, h1, i, hi, e, hg⟩
    rw [← fabs_eq_abs]
    exact not_lt.mp hg

/-- Witness of C1: the call from time 0 to time 1 with zero derivatives returns 1
and leaves time 1. -/
theorem rke_solve_success_within_half_minimum_step_witness :
    rke_solve 3 (rke_init 1 zero_function) 0 (fun _ => 3) 1 = some solved_zero ∧
    solved_zero.ret ≠ 0 ∧ solved_zero.time = 1 ∧
    2 * |(1 : ℚ) - solved_zero.time| ≤ solved_zero.var.minimum_step :=
  ⟨solved_zero_eq, by decide!, by decide!,
    (rke_solve_success_within_half_minimum_step 3 (rke_init 1 zero_function) 0 (fun _ => 3) 1
      solved_zero solved_zero_eq (by decide!)).1⟩

/-- C2: whenever `rke_solve` returns failure, the time and variables it leaves
are those of the head of the outer iteration in which the failure occurred:
the run went through a head of the outer loop holding exactly the returned
time and variables, no later configuration is a head of the outer loop, and
from that head on every configuration holds the same time and variables, so no
intermediate value of the failing trial is written to them. -/
theorem rke_solve_failure_leaves_committed_state (fuel : Nat) (var : rke_variables)
    (time : ℚ) (vars : Vec) (aimed_time : ℚ) (r : Solved)
    (h : rke_solve fuel var time vars aimed_time = some r) (_hret : r.ret = 0) :
    ∃ i var0, i < fuel ∧
      run aimed_time i (.outer var time vars) = .outer var0 r.time r.vars ∧
      ∀ j, i ≤ j →
        (run aimed_time j (.outer var time vars)).time = r.time ∧
        (run aimed_time j (.outer var time vars)).vars = r.vars ∧
        (i < j → (run aimed_time j (.outer var time vars)).isOuter = false) := by
  unfold rke_solve at h
  have hd := result_eq_some h
  rcases run_last_outer aimed_time fuel _ r.ret r.var r.time r.vars hd
    with ⟨i, var0, hi, e, hall⟩ | hall
  · refine ⟨i, var0, hi, e, ?_⟩
    intro j hij
    by_cases hj : j ≤ fuel
    · exact hall j hij hj
    · rw [run_after_done aimed_time fuel j _ r.ret r.var r.time r.vars hd (by omega)]
      exact ⟨rfl, rfl, fun _ => rfl⟩
  · have := (hall 0 (Nat.zero_le _)).2.2
    simp [run, Config.isOuter] at this

/-- Witness of C2: on the block `coarse`, the call from time 0 towards time 2
with `spike_function` commits one step, then fails, and leaves time 1. -/
theorem rke_solve_failure_leaves_committed_state_witness :
    rke_solve 4 (coarse spike_function) 0 (fun _ => 3) 2 = some solved_spike ∧
    solved_spike.ret = 0 ∧ solved_spike.time = 1 ∧
    ∃ i var0, i < 4 ∧
      run 2 i (.outer (coarse spike_function) 0 (fun _ => 3))
        = .outer var0 solved_spike.time solved_spike.vars ∧
      ∀ j, i ≤ j →
        (run 2 j (.outer (coarse spike_function) 0 (fun _ => 3))).time = solved_spike.time ∧
        (run 2 j (.outer (coarse spike_function) 0 (fun _ => 3))).vars = solved_spike.vars ∧
        (i < j → (run 2 j (.outer (coarse spike_function) 0 (fun _ => 3))).isOuter = false) :=
  ⟨solved_spike_eq, by decide!, by decide!,
    rke_solve_failure_leaves_committed_state 4 (coarse spike_function) 0 (fun _ => 3) 2
      solved_spike solved_spike_eq (by decide!)⟩

/-- C3: the state returned by `rke_init` satisfies
`minimum_step ≤ current_step ≤ maximum_step`, and every `rke_solve` call
entered with `0 < minimum_step ≤ current_step ≤ maximum_step` returns with
`minimum_step ≤ current_step ≤ maximum_step`, whatever the problem function
does and whatever value the call returns. -/
theorem step_size_bound_invariant (number : Int) (routine : ℚ → Vec → Option Vec)
    (fuel : Nat) (var : rke_variables) (time : ℚ) (vars : Vec) (aimed_time : ℚ) (r : Solved)
    (hmin : 0 < var.minimum_step) (hlo : var.minimum_step ≤ var.current_step)
    (hhi : var.current_step ≤ var.maximum_step)
    (h : rke_solve fuel var time vars aimed_time = some r) :
    ((rke_init number routine).minimum_step ≤ (rke_init number routine).current_step ∧
      (rke_init number routine).current_step ≤ (rke_init number routine).maximum_step) ∧
    (r.var.minimum_step ≤ r.var.current_step ∧ r.var.current_step ≤ r.var.maximum_step) := by
  constructor
  · constructor <;> simp only [rke_init] <;> norm_num
  · have hb := run_bounds aimed_time fuel (.outer var time vars) ⟨hmin, hlo, hhi⟩
    rw [← rke_solve_var h] at hb
    exact ⟨hb.2.1, hb.2.2⟩

/-- Witness of C3: the call from time 0 to time 1 with zero derivatives on a
fresh block doubles the step size, which stays within the bounds. -/
theorem step_size_bound_invariant_witness :
    (0 < (rke_init 1 zero_function).minimum_step ∧
      (rke_init 1 zero_function).minimum_step ≤ (rke_init 1 zero_function).current_step ∧
      (rke_init 1 zero_function).current_step ≤ (rke_init 1 zero_function).maximum_step) ∧
    rke_solve 3 (rke_init 1 zero_function) 0 (fun _ => 3) 1 = some solved_zero ∧
    solved_zero.var.current_step = 2 ∧
    (solved_zero.var.minimum_step ≤ solved_zero.var.current_step ∧
      solved_zero.var.current_step ≤ solved_zero.var.maximum_step) :=
  ⟨by decide!, solved_zero_eq, by decide!,
    (step_size_bound_invariant 1 zero_function 3 (rke_init 1 zero_function) 0 (fun _ => 3) 1
      solved_zero (by decide!) (by decide!) (by decide!) solved_zero_eq).2⟩

/-- C4: for every reentrancy block with `minimum_step ≥ 0`, every time and
variables, `rke_solve` called with `aimed_time` equal to the time returns 1 at
once: the single transition from the head of the outer loop is the `return`,
so no derivative is evaluated, and time, variables and the whole block
(`accepted_steps`, `rejected_steps` and `current_step` included) are left
unchanged. -/
theorem rke_solve_noop (fuel : Nat) (var : rke_variables) (time : ℚ) (vars : Vec)
    (hmin : 0 ≤ var.minimum_step) :
    step time (.outer var time vars) = .done 1 var time vars ∧
    rke_solve (fuel + 1) var time vars time = some ⟨1, var, time, vars⟩ := by
  have hs := step_at_target var time vars hmin
  refine ⟨hs, ?_⟩
  unfold rke_solve
  show (run time fuel (step time (.outer var time vars))).result = _
  rw [hs, run_done]
  rfl

/-- Witness of C4: on a fresh block whose problem function always fails, the
call with `aimed_time` equal to the time returns 1. -/
theorem rke_solve_noop_witness :
    0 ≤ (rke_init 2 failing_function).minimum_step ∧
    rke_solve 1 (rke_init 2 failing_function) 5 (fun _ => 3) 5
      = some ⟨1, rke_init 2 failing_function, 5, fun _ => 3⟩ :=
  ⟨by decide!, (rke_solve_noop 0 (rke_init 2 failing_function) 5 (fun _ => 3) (by decide!)).2⟩

/-- Counterexample to C5 as stated: with a problem function that always fails,
the call with `aimed_time` equal to the time does not return failure, it
returns 1. -/
theorem always_failing_not_always_failure :
    (∀ t v, (rke_init 1 failing_function).eval_routine t v = none) ∧
    (rke_solve 1 (rke_init 1 failing_function) 0 (fun _ => 3) 0).map (fun r => r.ret)
      = some 1 :=
  ⟨fun _ _ => rfl, by decide!⟩

/-- C5, amended: for a problem function that always reports failure, and for
every reentrancy block, time, variables and aimed time with
`2 * |aimed_time - time| > minimum_step`, `rke_solve` returns failure (0), with
time and variables (and the block) unchanged from their input values. -/
theorem rke_solve_failure_propagation (fuel : Nat) (var : rke_variables) (time : ℚ)
    (vars : Vec) (aimed_time : ℚ) (hfail : ∀ t v, var.eval_routine t v = none)
    (hfar : 2 * |aimed_time - time| > var.minimum_step) :
    rke_solve (fuel + 1) var time vars aimed_time = some ⟨0, var, time, vars⟩ := by
  rw [← fabs_eq_abs] at hfar
  have hs := step_first_evaluation_fails var time vars aimed_time (hfail time vars) hfar
  unfold rke_solve
  show (run aimed_time fuel (step aimed_time (.outer var time vars))).result = _
  rw [hs, run_done]
  rfl

/-- Witness of C5, amended: on a fresh block whose problem function always
fails, the call from time 0 towards time 1 returns 0. -/
theorem rke_solve_failure_propagation_witness :
    (∀ t v, (rke_init 1 failing_function).eval_routine t v = none) ∧
    2 * |(1 : ℚ) - 0| > (rke_init 1 failing_function).minimum_step ∧
    rke_solve 1 (rke_init 1 failing_function) 0 (fun _ => 3) 1
      = some ⟨0, rke_init 1 failing_function, 0, fun _ => 3⟩ :=
  ⟨fun _ _ => rfl, by rw [← fabs_eq_abs]; decide!,
    rke_solve_failure_propagation 0 (rke_init 1 failing_function) 0 (fun _ => 3) 1
      (fun _ _ => rfl) (by rw [← fabs_eq_abs]; decide!)⟩

/-- C6: for a problem function that never reports failure, `rke_solve` returns
failure exactly when the run makes a trial step of magnitude
`|whole_step| ≤ minimum_step` that is rejected (some component's estimated
error exceeds its allowable error); and a rejected trial step with
`|whole_step| > minimum_step` does not end the call: the next configuration is
a retry of the trial from the same time and variables. -/
theorem convergence_failure_iff_rejected_at_minimum (fuel : Nat) (var : rke_variables)
    (time : ℚ) (vars : Vec) (aimed_time : ℚ) (r : Solved)
    (hnf : ∀ t v, var.eval_routine t v ≠ none)
    (h : rke_solve fuel var time vars aimed_time = some r) :
    (r.ret = 0 ↔
      ∃ i var1 time1 vars1 dp whole_step,
        run aimed_time i (.outer var time vars) = .inner var1 time1 vars1 dp whole_step ∧
        |whole_step| ≤ var.minimum_step ∧
        rejected_trial var1 time1 vars1 dp whole_step) ∧
    (∀ i var1 time1 vars1 dp whole_step,
        run aimed_time i (.outer var time vars) = .inner var1 time1 vars1 dp whole_step →
        |whole_step| > var.minimum_step →
        rejected_trial var1 time1 vars1 dp whole_step →
        ∃ var2 whole_step2,
          run aimed_time (i + 1) (.outer var time vars)
            = .inner var2 time1 vars1 dp whole_step2) := by
  unfold rke_solve at h
  have hd := result_eq_some h
  have hset : ∀ i var1, (run aimed_time i (.outer var time vars)).var = var1 →
      var1.eval_routine = var.eval_routine ∧ var1.minimum_step = var.minimum_step := by
    intro i var1 e
    have := run_frame aimed_time i (.outer var time vars)
    rw [e] at this
    exact ⟨this.2.1, this.2.2.1⟩
  refine ⟨⟨?_, ?_⟩, ?_⟩
  · intro hret
    rcases run_enters_done aimed_time fuel _ r.ret r.var r.time r.vars hd
      with e | ⟨i, _, hres, e⟩
    · simp at e
    · cases hc : run aimed_time i (.outer var time vars) with
      | outer var1 time1 vars1 =>
        exfalso
        obtain ⟨he, _⟩ := hset i var1 (by rw [hc]; rfl)
        rw [hc] at e
        simp only [step] at e
        split at e
        · split at e
          · rename_i hnone
            rw [he] at hnone
            exact hnf _ _ hnone
          · simp at e
        · simp only [Config.done.injEq] at e
          rw [hret] at e
          exact absurd e.1 (by decide)
      | inner var1 time1 vars1 dp whole_step =>
        obtain ⟨he, hm⟩ := hset i var1 (by rw [hc]; rfl)
        rw [hc] at e
        simp only [step] at e
        have hnf1 : ∀ t v, var1.eval_routine t v ≠ none := by
          intro t v; rw [he]; exact hnf t v
        obtain ⟨_, hrej, hle⟩ := trial_done_of_total var1 time1 vars1 aimed_time dp
          whole_step hnf1 _ _ _ _ e
        refine ⟨i, var1, time1, vars1, dp, whole_step, hc, ?_, hrej⟩
        rw [← fabs_eq_abs, ← hm]
        exact not_lt.mp hle
      | done ret1 var1 time1 vars1 =>
        rw [hc] at hres
        simp [Config.result] at hres
  · rintro ⟨i, var1, time1, vars1, dp, whole_step, hc, hle, hrej⟩
    obtain ⟨_, hm⟩ := hset i var1 (by rw [hc]; rfl)
    by_cases hi : fuel ≤ i
    · rw [run_after_done aimed_time fuel i _ r.ret r.var r.time r.vars hd hi] at hc
      simp at hc
    · have hnext : run aimed_time (i + 1) (.outer var time vars)
          = .done 0 { var1 with rejected_steps := var1.rejected_steps + 1 } time1 vars1 := by
        rw [run_succ_right, hc]
        simp only [step]
        rw [trial_of_rejected var1 time1 vars1 aimed_time dp whole_step hrej]
        unfold reject
        simp only
        rw [if_neg]
        rw [fabs_eq_abs, hm]
        exact not_lt.mpr hle
      have := run_after_done aimed_time (i + 1) fuel _ _ _ _ _ hnext (by omega)
      rw [hd] at this
      simp only [Config.done.injEq] at this
      exact this.1
  · intro i var1 time1 vars1 dp whole_step hc hgt hrej
    obtain ⟨_, hm⟩ := hset i var1 (by rw [hc]; rfl)
    have hgt1 : fabs whole_step > var1.minimum_step := by
      rw [fabs_eq_abs, hm]; exact hgt
    have hnext : step aimed_time (.inner var1 time1 vars1 dp whole_step)
        = .inner (shrink { var1 with rejected_steps := var1.rejected_steps + 1 }) time1 vars1 dp
            (if aimed_time > time1
              then (shrink { var1 with rejected_steps := var1.rejected_steps + 1 }).current_step
              else - (shrink { var1 with rejected_steps := var1.rejected_steps + 1 }).current_step) := by
      simp only [step]
      rw [trial_of_rejected var1 time1 vars1 aimed_time dp whole_step hrej]
      unfold reject
      simp only
      rw [if_pos hgt1]
    exact ⟨_, _, by rw [run_succ_right, hc, hnext]⟩

/-- Witness of C6: `spike_function` never fails, and the call from time 0
towards time 2 on the block `coarse` returns 0. -/
theorem convergence_failure_iff_rejected_at_minimum_witness :
    (∀ t v, (coarse spike_function).eval_routine t v ≠ none) ∧
    rke_solve 4 (coarse spike_function) 0 (fun _ => 3) 2 = some solved_spike ∧
    (solved_spike.ret = 0 ↔
      ∃ i var1 time1 vars1 dp whole_step,
        run 2 i (.outer (coarse spike_function) 0 (fun _ => 3))
          = .inner var1 time1 vars1 dp whole_step ∧
        |whole_step| ≤ (coarse spike_function).minimum_step ∧
        rejected_trial var1 time1 vars1 dp whole_step) :=
  ⟨fun _ _ => Option.some_ne_none _, solved_spike_eq,
    (convergence_failure_iff_rejected_at_minimum 4 (coarse spike_function) 0 (fun _ => 3) 2
      solved_spike (fun _ _ => Option.some_ne_none _) solved_spike_eq).1⟩

/-- C7: for every `rke_solve` call, whatever its outcome, `accepted_steps` and
`rejected_steps` on return are each at least their values on entry (the
counters being unbounded integers); hence neither decreases across any
sequence of calls made on the same handle. -/
theorem counters_never_decrease (fuel : Nat) (var : rke_variables) (time : ℚ) (vars : Vec)
    (aimed_time : ℚ) (r : Solved) (calls : List Call) (var1 : rke_variables)
    (h : rke_solve fuel var time vars aimed_time = some r)
    (hseq : solve_sequence var calls = some var1) :
    (var.accepted_steps ≤ r.var.accepted_steps ∧ var.rejected_steps ≤ r.var.rejected_steps) ∧
    (var.accepted_steps ≤ var1.accepted_steps ∧ var.rejected_steps ≤ var1.rejected_steps) := by
  constructor
  · have hc := run_counters aimed_time fuel (.outer var time vars)
    rw [← rke_solve_var h] at hc
    exact hc
  · exact solve_sequence_counters var calls var1 hseq

/-- Witness of C7: a call with one accepted step, and a sequence of two calls
(forth and back) with one accepted step each. -/
theorem counters_never_decrease_witness :
    rke_solve 3 (rke_init 1 zero_function) 0 (fun _ => 3) 1 = some solved_zero ∧
    solve_sequence (rke_init 1 zero_function)
      [⟨3, 0, fun _ => 3, 1⟩, ⟨3, 1, fun _ => 3, 0⟩] = some block_forth_and_back ∧
    (solved_zero.var.accepted_steps = 1 ∧ block_forth_and_back.accepted_steps = 2) ∧
    ((rke_init 1 zero_function).accepted_steps ≤ solved_zero.var.accepted_steps ∧
      (rke_init 1 zero_function).rejected_steps ≤ solved_zero.var.rejected_steps) ∧
    ((rke_init 1 zero_function).accepted_steps ≤ block_forth_and_back.accepted_steps ∧
      (rke_init 1 zero_function).rejected_steps ≤ block_forth_and_back.rejected_steps) :=
  ⟨solved_zero_eq, block_forth_and_back_eq, by decide!,
    counters_never_decrease 3 (rke_init 1 zero_function) 0 (fun _ => 3) 1 solved_zero
      [⟨3, 0, fun _ => 3, 1⟩, ⟨3, 1, fun _ => 3, 0⟩] block_forth_and_back
      solved_zero_eq block_forth_and_back_eq⟩

/-- C8: for every `rke_solve` call and every outcome, the handle's
`n_equations`, `eval_routine`, `minimum_step`, `maximum_step`, `error_slope`
and `error_biais` are unchanged: the block returned is the block passed with
at most `current_step`, `accepted_steps` and `rejected_steps` modified. -/
theorem rke_solve_frame (fuel : Nat) (var : rke_variables) (time : ℚ) (vars : Vec)
    (aimed_time : ℚ) (r : Solved) (h : rke_solve fuel var time vars aimed_time = some r) :
    (r.var.n_equations = var.n_equations ∧ r.var.eval_routine = var.eval_routine ∧
      r.var.minimum_step = var.minimum_step ∧ r.var.maximum_step = var.maximum_step ∧
      r.var.error_slope = var.error_slope ∧ r.var.error_biais = var.error_biais) ∧
    r.var = { var with current_step := r.var.current_step,
                       accepted_steps := r.var.accepted_steps,
                       rejected_steps := r.var.rejected_steps } := by
  have hf := run_frame aimed_time fuel (.outer var time vars)
  rw [← rke_solve_var h] at hf
  obtain ⟨h1, h2, h3, h4, h5, h6⟩ := hf
  simp only [Config.var] at h1 h2 h3 h4 h5 h6
  refine ⟨⟨h1, h2, h3, h4, h5, h6⟩, ?_⟩
  rw [← h1, ← h2, ← h3, ← h4, ← h5, ← h6]

/-- Witness of C8: the call on the block `coarse` that accepts one step and
rejects one. -/
theorem rke_solve_frame_witness :
    rke_solve 4 (coarse spike_function) 0 (fun _ => 3) 2 = some solved_spike ∧
    (solved_spike.var.accepted_steps = 1 ∧ solved_spike.var.rejected_steps = 1) ∧
    (solved_spike.var.n_equations = (coarse spike_function).n_equations ∧
      solved_spike.var.eval_routine = (coarse spike_function).eval_routine ∧
      solved_spike.var.minimum_step = (coarse spike_function).minimum_step ∧
      solved_spike.var.maximum_step = (coarse spike_function).maximum_step ∧
      solved_spike.var.error_slope = (coarse spike_function).error_slope ∧
      solved_spike.var.error_biais = (coarse spike_function).error_biais) :=
  ⟨solved_spike_eq, by decide!,
    (rke_solve_frame 4 (coarse spike_function) 0 (fun _ => 3) 2 solved_spike
      solved_spike_eq).1⟩

/-- C9: for every `number` and `routine`, `rke_init (number, routine)` returns
a block with `n_equations = number`, `eval_routine = routine`,
`minimum_step = 1e-6`, `maximum_step = 1e6`, `current_step = 1`,
`error_slope = 1e-7`, `error_biais = 1e-8`, `accepted_steps = 0` and
`rejected_steps = 0`. -/
theorem rke_init_defaults (number : Int) (routine : ℚ → Vec → Option Vec) :
    (rke_init number routine).n_equations = number ∧
    (rke_init number routine).eval_routine = routine ∧
    (rke_init number routine).minimum_step = 1 / 1000000 ∧
    (rke_init number routine).maximum_step = 1000000 ∧
    (rke_init number routine).current_step = 1 ∧
    (rke_init number routine).error_slope = 1 / 10000000 ∧
    (rke_init number routine).error_biais = 1 / 100000000 ∧
    (rke_init number routine).accepted_steps = 0 ∧
    (rke_init number routine).rejected_steps = 0 := by
  refine ⟨rfl, rfl, ?_, ?_, ?_, ?_, ?_, rfl, rfl⟩ <;> simp only [rke_init] <;> norm_num

/-- Counterexample to C10 as stated: for the decay `dv/dt = -8 * v`, whose
solution is known in closed form, on a block with the step sizes of a fresh
one (minimum `1e-6`, maximum `1e6`, current 1) and the tolerance
`error_slope = 0`, `error_biais = 1e-3`, the call from time 0 and value 1 to
time 2 and the call back to time 0 both succeed, and the value returned is
above 2: it is off the original value 1 by more than 1000 times the configured
tolerance. -/
theorem decay_round_trip_is_off :
    (round_trip 40 (block decay_function (1 / 1000000) 1000000 1 (1 / 1000)) 0
        (fun _ => 1) 2).map
      (fun p => (p.1.ret, p.1.time, p.2.ret, p.2.time, decide (p.2.vars 0 > 2),
        decide (p.2.vars 0 - 1
          > 1000 * (block decay_function (1 / 1000000) 1000000 1 (1 / 1000)).error_biais)))
      = some (1, 2, 1, 0, true, true) := by
  decide!

/-- C10, amended: for the system `d[0] = -v[1]`, `d[1] = v[0]` started at time 0
with variables `(1, 0)` on a freshly created block, `rke_solve` to
`aimed_time = 1.5` followed by `rke_solve` back to `aimed_time = 0` both
succeed (the first leaves time 3/2, the second time 0), and the variables
returned are within `1e-6` of `(1, 0)`. -/
theorem cos_sin_round_trip_within_tolerance :
    ∃ r1 r2,
      rke_solve 53 (rke_init 2 problem_function_2) 0 (fun k => if k = 0 then 1 else 0) (3 / 2)
        = some r1 ∧
      r1.ret = 1 ∧ r1.time = 3 / 2 ∧
      rke_solve 53 r1.var r1.time r1.vars 0 = some r2 ∧
      r2.ret = 1 ∧ r2.time = 0 ∧
      |r2.vars 0 - 1| ≤ 1 / 1000000 ∧ |r2.vars 1 - 0| ≤ 1 / 1000000 := by
  obtain ⟨h1, h2⟩ := round_trip_eq_some _ _ _ _ _ _ cos_sin_round_trip_eq
  obtain ⟨e1, e2, e3, e4, e5, e6⟩ := cos_sin_round_trip_values
  rw [fabs_eq_abs] at e5 e6
  exact ⟨cos_sin_round_trip.1, cos_sin_round_trip.2, h1, e1, e2, h2, e3, e4, e5, e6⟩

/-- Counterexample to C11 as stated: with cells that may be NaN, on a fresh
block, the call from time 0 to time 1 with the problem function
`d[0] = 0.0 / t` (NaN at time 0) makes one trial step whose estimated error
and allowable error are NaN, so that `err_0 <= tol_0` is false; the trial step
is accepted all the same (`accepted_steps` becomes 1, `rejected_steps` stays
0), and the call returns 1 with a NaN variable. -/
theorem nan_estimate_is_accepted :
    (WithNaN.stages (rke_init 1 zero_function) WithNaN.zero_over_time 0
        (fun _ => Dbl.ofRat 0) (fun _ => Dbl.nan) 1).map
      (fun s => (WithNaN.estimated_error 1 s 0,
        Dbl.le (WithNaN.estimated_error 1 s 0)
          (WithNaN.allowable_error (rke_init 1 zero_function) 1 s 0),
        (WithNaN.error_analysis (rke_init 1 zero_function) 1 s).1))
      = some (Dbl.nan, false, true) ∧
    (WithNaN.run WithNaN.zero_over_time 1 2
      (.outer (rke_init 1 zero_function) 0 (fun _ => Dbl.ofRat 0))).isOuter = true ∧
    (WithNaN.run WithNaN.zero_over_time 1 2
      (.outer (rke_init 1 zero_function) 0 (fun _ => Dbl.ofRat 0))).var.accepted_steps = 1 ∧
    (WithNaN.run WithNaN.zero_over_time 1 2
      (.outer (rke_init 1 zero_function) 0 (fun _ => Dbl.ofRat 0))).var.rejected_steps = 0 ∧
    (WithNaN.run WithNaN.zero_over_time 1 3
      (.outer (rke_init 1 zero_function) 0 (fun _ => Dbl.ofRat 0))).ret = some 1 ∧
    (WithNaN.run WithNaN.zero_over_time 1 3
      (.outer (rke_init 1 zero_function) 0 (fun _ => Dbl.ofRat 0))).vars 0 = Dbl.nan := by
  decide!

/-- C11, amended: a trial step that completes its stage evaluations is accepted
if and only if no component `k` has `err_k > tol_k`, with
`err_k = |(-a1_k + 4*a3_k + 17*a4_k - 23*a5_k + 4*a7_k - half_step*d_k)/90|`
and `tol_k = |whole_step| * (error_slope*|vt_k| + error_biais)`, and is
rejected when some component has `err_k > tol_k`; the loop that leaves at the
first such component takes this same decision; and the trial adds one to
exactly one of `accepted_steps` and `rejected_steps`, leaving the other.
This holds over numbers, and over cells that may be NaN, where the comparison
`>` is false of a NaN. -/
theorem accept_rule (var : rke_variables) (time : ℚ) (vars : Vec) (aimed_time : ℚ)
    (dp : Vec) (whole_step : ℚ) (s : Stages)
    (routine : ℚ → WithNaN.Vec → Option WithNaN.Vec) (nvars ndp : WithNaN.Vec)
    (ns : WithNaN.Stages)
    (hs : stages var time vars dp whole_step = some s)
    (hns : WithNaN.stages var routine time nvars ndp whole_step = some ns) :
    (((error_analysis var whole_step s).1 = true ↔
        ∀ k : Nat, (k : Int) < var.n_equations →
          ¬ |(- s.a1 k + 4 * s.a3 k + 17 * s.a4 k - 23 * s.a5 k + 4 * s.a7 k
              - whole_step / 2 * s.d k) / 90|
            > |whole_step| * (var.error_slope * |s.vt k| + var.error_biais)) ∧
      ((∀ k : Nat, (k : Int) < var.n_equations →
          ¬ |(- s.a1 k + 4 * s.a3 k + 17 * s.a4 k - 23 * s.a5 k + 4 * s.a7 k
              - whole_step / 2 * s.d k) / 90|
            > |whole_step| * (var.error_slope * |s.vt k| + var.error_biais)) →
        trial var time vars aimed_time dp whole_step
          = accept var time vars whole_step s (error_analysis var whole_step s).2 ∧
        (trial var time vars aimed_time dp whole_step).var.accepted_steps
          = var.accepted_steps + 1 ∧
        (trial var time vars aimed_time dp whole_step).var.rejected_steps
          = var.rejected_steps) ∧
      ((∃ k : Nat, (k : Int) < var.n_equations ∧
          |(- s.a1 k + 4 * s.a3 k + 17 * s.a4 k - 23 * s.a5 k + 4 * s.a7 k
              - whole_step / 2 * s.d k) / 90|
            > |whole_step| * (var.error_slope * |s.vt k| + var.error_biais)) →
        trial var time vars aimed_time dp whole_step
          = reject var time vars aimed_time dp whole_step ∧
        (trial var time vars aimed_time dp whole_step).var.accepted_steps
          = var.accepted_steps ∧
        (trial var time vars aimed_time dp whole_step).var.rejected_steps
          = var.rejected_steps + 1)) ∧
    (((WithNaN.error_analysis var whole_step ns).1 = true ↔
        ∀ k : Nat, (k : Int) < var.n_equations →
          Dbl.gt (WithNaN.estimated_error whole_step ns k)
            (WithNaN.allowable_error var whole_step ns k) = false) ∧
      ((∀ k : Nat, (k : Int) < var.n_equations →
          Dbl.gt (WithNaN.estimated_error whole_step ns k)
            (WithNaN.allowable_error var whole_step ns k) = false) →
        WithNaN.trial var routine time nvars aimed_time ndp whole_step
          = WithNaN.accept var routine time nvars whole_step ns
              (WithNaN.error_analysis var whole_step ns).2 ∧
        (WithNaN.trial var routine time nvars aimed_time ndp whole_step).var.accepted_steps
          = var.accepted_steps + 1 ∧
        (WithNaN.trial var routine time nvars aimed_time ndp whole_step).var.rejected_steps
          = var.rejected_steps) ∧
      ((∃ k : Nat, (k : Int) < var.n_equations ∧
          Dbl.gt (WithNaN.estimated_error whole_step ns k)
            (WithNaN.allowable_error var whole_step ns k) = true) →
        WithNaN.trial var routine time nvars aimed_time ndp whole_step
          = WithNaN.reject var time nvars aimed_time ndp whole_step ∧
        (WithNaN.trial var routine time nvars aimed_time ndp whole_step).var.accepted_steps
          = var.accepted_steps ∧
        (WithNaN.trial var routine time nvars aimed_time ndp whole_step).var.rejected_steps
          = var.rejected_steps + 1)) := by
  have hiff : (error_analysis var whole_step s).1 = true ↔
      ∀ k : Nat, (k : Int) < var.n_equations →
        ¬ |(- s.a1 k + 4 * s.a3 k + 17 * s.a4 k - 23 * s.a5 k + 4 * s.a7 k
            - whole_step / 2 * s.d k) / 90|
          > |whole_step| * (var.error_slope * |s.vt k| + var.error_biais) := by
    rw [error_analysis_within]
    constructor
    · intro h k hk
      have := h k hk
      rwa [estimated_error_eq, allowable_error_eq] at this
    · intro h k hk
      have := h k hk
      rwa [← estimated_error_eq, ← allowable_error_eq] at this
  have ht := trial_of_stages var time vars aimed_time dp whole_step s hs
  have hniff := nan_error_analysis_within var whole_step ns
  have hnt := nan_trial_of_stages var routine time nvars aimed_time ndp whole_step ns hns
  refine ⟨⟨hiff, ?_, ?_⟩, ⟨hniff, ?_, ?_⟩⟩
  · intro hall
    rw [if_pos (hiff.mpr hall)] at ht
    rw [ht]
    exact ⟨rfl, accept_counters var time vars whole_step s _⟩
  · rintro ⟨k, hk, hgt⟩
    rw [if_neg (fun h => hiff.mp h k hk hgt)] at ht
    rw [ht]
    exact ⟨rfl, reject_counters var time vars aimed_time dp whole_step⟩
  · intro hall
    rw [if_pos (hniff.mpr hall)] at hnt
    rw [hnt]
    exact ⟨rfl, nan_accept_counters var routine time nvars whole_step ns _⟩
  · rintro ⟨k, hk, hgt⟩
    rw [if_neg (fun h => by rw [hniff.mp h k hk] at hgt; exact Bool.false_ne_true hgt)] at hnt
    rw [hnt]
    exact ⟨rfl, nan_reject_counters var time nvars aimed_time ndp whole_step⟩

/-- Witness of C11, amended: the trial step from time 0 with step 1 on a fresh
block, with zero derivatives over numbers, and with `d[0] = 0.0 / t` over cells
that may be NaN; both complete their stages and are found within tolerance. -/
theorem accept_rule_witness :
    stages (rke_init 1 zero_function) 0 (fun _ => 3) (fun _ => 0) 1 = some stages_zero ∧
    WithNaN.stages (rke_init 1 zero_function) WithNaN.zero_over_time 0
      (fun _ => Dbl.ofRat 0) (fun _ => Dbl.nan) 1 = some WithNaN.stages_nan ∧
    ((error_analysis (rke_init 1 zero_function) 1 stages_zero).1 = true ↔
      ∀ k : Nat, (k : Int) < (rke_init 1 zero_function).n_equations →
        ¬ |(- stages_zero.a1 k + 4 * stages_zero.a3 k + 17 * stages_zero.a4 k
            - 23 * stages_zero.a5 k + 4 * stages_zero.a7 k
            - 1 / 2 * stages_zero.d k) / 90|
          > |(1 : ℚ)| * ((rke_init 1 zero_function).error_slope * |stages_zero.vt k|
              + (rke_init 1 zero_function).error_biais)) ∧
    ((WithNaN.error_analysis (rke_init 1 zero_function) 1 WithNaN.stages_nan).1 = true ↔
      ∀ k : Nat, (k : Int) < (rke_init 1 zero_function).n_equations →
        Dbl.gt (WithNaN.estimated_error 1 WithNaN.stages_nan k)
          (WithNaN.allowable_error (rke_init 1 zero_function) 1 WithNaN.stages_nan k)
          = false) :=
  ⟨stages_zero_eq, stages_nan_eq,
    (accept_rule (rke_init 1 zero_function) 0 (fun _ => 3) 1 (fun _ => 0) 1 stages_zero
      WithNaN.zero_over_time (fun _ => Dbl.ofRat 0) (fun _ => Dbl.nan) WithNaN.stages_nan
      stages_zero_eq stages_nan_eq).1.1,
    (accept_rule (rke_init 1 zero_function) 0 (fun _ => 3) 1 (fun _ => 0) 1 stages_zero
      WithNaN.zero_over_time (fun _ => Dbl.ofRat 0) (fun _ => Dbl.nan) WithNaN.stages_nan
      stages_zero_eq stages_nan_eq).2.1⟩

/-- Counterexample to C12 as stated: with cells that may be NaN, on a fresh
block (`current_step = 1`), the trial step of size 1 from time 0 with the
problem function `d[0] = 0.0 / t` has a NaN estimated error, so that
`err_0 <= 0.02 * tol_0` is false; it is accepted and committed, and
`current_step` is not left unchanged: it grows from 1 to 2. -/
theorem nan_estimate_grows_step :
    (rke_init 1 zero_function).current_step = 1 ∧
    (WithNaN.stages (rke_init 1 zero_function) WithNaN.zero_over_time 0
        (fun _ => Dbl.ofRat 0) (fun _ => Dbl.nan) 1).map
      (fun s => (Dbl.le (WithNaN.estimated_error 1 s 0)
          (0.02 * WithNaN.allowable_error (rke_init 1 zero_function) 1 s 0),
        WithNaN.error_analysis (rke_init 1 zero_function) 1 s))
      = some (false, true, true) ∧
    (WithNaN.trial (rke_init 1 zero_function) WithNaN.zero_over_time 0
      (fun _ => Dbl.ofRat 0) 1 (fun _ => Dbl.nan) 1).isOuter = true ∧
    (WithNaN.trial (rke_init 1 zero_function) WithNaN.zero_over_time 0
      (fun _ => Dbl.ofRat 0) 1 (fun _ => Dbl.nan) 1).time = 1 ∧
    (WithNaN.trial (rke_init 1 zero_function) WithNaN.zero_over_time 0
      (fun _ => Dbl.ofRat 0) 1 (fun _ => Dbl.nan) 1).var.current_step = 2 := by
  decide!

/-- C12, amended: after an accepted trial step whose final derivative
evaluation succeeds (the trial arrives at the head of the outer loop),
`current_step` is `min (2 * current_step) maximum_step` if no component had
`err_k > 0.02 * tol_k` and `|whole_step|` equals `current_step`, and is
unchanged in every other case.  This holds over numbers, and over cells that
may be NaN, where the comparison `>` is false of a NaN. -/
theorem growth_rule (var : rke_variables) (time : ℚ) (vars : Vec) (aimed_time : ℚ)
    (dp : Vec) (whole_step : ℚ) (s : Stages) (var1 : rke_variables) (time1 : ℚ) (vars1 : Vec)
    (routine : ℚ → WithNaN.Vec → Option WithNaN.Vec) (nvars ndp : WithNaN.Vec)
    (ns : WithNaN.Stages) (nvar1 : rke_variables) (ntime1 : ℚ) (nvars1 : WithNaN.Vec)
    (hs : stages var time vars dp whole_step = some s)
    (hacc : trial var time vars aimed_time dp whole_step = .outer var1 time1 vars1)
    (hns : WithNaN.stages var routine time nvars ndp whole_step = some ns)
    (hnacc : WithNaN.trial var routine time nvars aimed_time ndp whole_step
      = .outer nvar1 ntime1 nvars1) :
    ((((∀ k : Nat, (k : Int) < var.n_equations →
            ¬ |(- s.a1 k + 4 * s.a3 k + 17 * s.a4 k - 23 * s.a5 k + 4 * s.a7 k
                - whole_step / 2 * s.d k) / 90|
              > 0.02 * (|whole_step| * (var.error_slope * |s.vt k| + var.error_biais))) ∧
          |whole_step| = var.current_step) →
        var1.current_step = min (2 * var.current_step) var.maximum_step) ∧
      (¬ ((∀ k : Nat, (k : Int) < var.n_equations →
            ¬ |(- s.a1 k + 4 * s.a3 k + 17 * s.a4 k - 23 * s.a5 k + 4 * s.a7 k
                - whole_step / 2 * s.d k) / 90|
              > 0.02 * (|whole_step| * (var.error_slope * |s.vt k| + var.error_biais))) ∧
          |whole_step| = var.current_step) →
        var1.current_step = var.current_step)) ∧
    ((((∀ k : Nat, (k : Int) < var.n_equations →
            Dbl.gt (WithNaN.estimated_error whole_step ns k)
              (0.02 * WithNaN.allowable_error var whole_step ns k) = false) ∧
          |whole_step| = var.current_step) →
        nvar1.current_step = min (2 * var.current_step) var.maximum_step) ∧
      (¬ ((∀ k : Nat, (k : Int) < var.n_equations →
            Dbl.gt (WithNaN.estimated_error whole_step ns k)
              (0.02 * WithNaN.allowable_error var whole_step ns k) = false) ∧
          |whole_step| = var.current_step) →
        nvar1.current_step = var.current_step)) := by
  obtain ⟨hw, hv, _, _⟩ :=
    trial_committed var time vars aimed_time dp whole_step s var1 time1 vars1 hs hacc
  obtain ⟨hnw, hnv⟩ :=
    nan_trial_committed var routine time nvars aimed_time ndp whole_step ns nvar1 ntime1
      nvars1 hns hnacc
  have hsmall : (error_analysis var whole_step s).2 = true ↔
      ∀ k : Nat, (k : Int) < var.n_equations →
        ¬ |(- s.a1 k + 4 * s.a3 k + 17 * s.a4 k - 23 * s.a5 k + 4 * s.a7 k
            - whole_step / 2 * s.d k) / 90|
          > 0.02 * (|whole_step| * (var.error_slope * |s.vt k| + var.error_biais)) := by
    rw [error_analysis_small var whole_step s hw]
    constructor
    · intro h k hk
      have := h k hk
      rwa [estimated_error_eq, allowable_error_eq] at this
    · intro h k hk
      have := h k hk
      rwa [← estimated_error_eq, ← allowable_error_eq] at this
  have hnsmall := nan_error_analysis_small var whole_step ns hnw
  refine ⟨⟨?_, ?_⟩, ⟨?_, ?_⟩⟩
  · rintro ⟨hall, heq⟩
    rw [hv, grow_current_step, if_pos ⟨hsmall.mpr hall, heq⟩]
  · intro hnot
    rw [hv, grow_current_step, if_neg]
    rintro ⟨h1, h2⟩
    exact hnot ⟨hsmall.mp h1, h2⟩
  · rintro ⟨hall, heq⟩
    rw [hnv, grow_current_step, if_pos ⟨hnsmall.mpr hall, heq⟩]
  · intro hnot
    rw [hnv, grow_current_step, if_neg]
    rintro ⟨h1, h2⟩
    exact hnot ⟨hnsmall.mp h1, h2⟩

/-- Witness of C12, amended: the trial step from time 0 with step 1 on a fresh
block, with zero derivatives over numbers, and with `d[0] = 0.0 / t` over cells
that may be NaN; both are committed, and both double the step size. -/
theorem growth_rule_witness :
    (trial (rke_init 1 zero_function) 0 (fun _ => 3) 1 (fun _ => 0) 1).var.current_step = 2 ∧
    (WithNaN.trial (rke_init 1 zero_function) WithNaN.zero_over_time 0
      (fun _ => Dbl.ofRat 0) 1 (fun _ => Dbl.nan) 1).var.current_step = 2 ∧
    (((∀ k : Nat, (k : Int) < (rke_init 1 zero_function).n_equations →
          ¬ |(- stages_zero.a1 k + 4 * stages_zero.a3 k + 17 * stages_zero.a4 k
              - 23 * stages_zero.a5 k + 4 * stages_zero.a7 k
              - 1 / 2 * stages_zero.d k) / 90|
            > 0.02 * (|(1 : ℚ)| * ((rke_init 1 zero_function).error_slope * |stages_zero.vt k|
                + (rke_init 1 zero_function).error_biais))) ∧
        |(1 : ℚ)| = (rke_init 1 zero_function).current_step) →
      (trial (rke_init 1 zero_function) 0 (fun _ => 3) 1 (fun _ => 0) 1).var.current_step
        = min (2 * (rke_init 1 zero_function).current_step)
            (rke_init 1 zero_function).maximum_step) ∧
    (((∀ k : Nat, (k : Int) < (rke_init 1 zero_function).n_equations →
          Dbl.gt (WithNaN.estimated_error 1 WithNaN.stages_nan k)
            (0.02 * WithNaN.allowable_error (rke_init 1 zero_function) 1
              WithNaN.stages_nan k) = false) ∧
        |(1 : ℚ)| = (rke_init 1 zero_function).current_step) →
      (WithNaN.trial (rke_init 1 zero_function) WithNaN.zero_over_time 0
        (fun _ => Dbl.ofRat 0) 1 (fun _ => Dbl.nan) 1).var.current_step
        = min (2 * (rke_init 1 zero_function).current_step)
            (rke_init 1 zero_function).maximum_step) :=
  ⟨by decide!, by decide!,
    (growth_rule (rke_init 1 zero_function) 0 (fun _ => 3) 1 (fun _ => 0) 1 stages_zero
      (trial (rke_init 1 zero_function) 0 (fun _ => 3) 1 (fun _ => 0) 1).var
      (trial (rke_init 1 zero_function) 0 (fun _ => 3) 1 (fun _ => 0) 1).time
      (trial (rke_init 1 zero_function) 0 (fun _ => 3) 1 (fun _ => 0) 1).vars
      WithNaN.zero_over_time (fun _ => Dbl.ofRat 0) (fun _ => Dbl.nan) WithNaN.stages_nan
      (WithNaN.trial (rke_init 1 zero_function) WithNaN.zero_over_time 0
        (fun _ => Dbl.ofRat 0) 1 (fun _ => Dbl.nan) 1).var
      (WithNaN.trial (rke_init 1 zero_function) WithNaN.zero_over_time 0
        (fun _ => Dbl.ofRat 0) 1 (fun _ => Dbl.nan) 1).time
      (WithNaN.trial (rke_init 1 zero_function) WithNaN.zero_over_time 0
        (fun _ => Dbl.ofRat 0) 1 (fun _ => Dbl.nan) 1).vars
      stages_zero_eq (eq_outer_of_isOuter _ (by decide!))
      stages_nan_eq (nan_eq_outer_of_isOuter _ (by decide!))).1.1,
    (growth_rule (rke_init 1 zero_function) 0 (fun _ => 3) 1 (fun _ => 0) 1 stages_zero
      (trial (rke_init 1 zero_function) 0 (fun _ => 3) 1 (fun _ => 0) 1).var
      (trial (rke_init 1 zero_function) 0 (fun _ => 3) 1 (fun _ => 0) 1).time
      (trial (rke_init 1 zero_function) 0 (fun _ => 3) 1 (fun _ => 0) 1).vars
      WithNaN.zero_over_time (fun _ => Dbl.ofRat 0) (fun _ => Dbl.nan) WithNaN.stages_nan
      (WithNaN.trial (rke_init 1 zero_function) WithNaN.zero_over_time 0
        (fun _ => Dbl.ofRat 0) 1 (fun _ => Dbl.nan) 1).var
      (WithNaN.trial (rke_init 1 zero_function) WithNaN.zero_over_time 0
        (fun _ => Dbl.ofRat 0) 1 (fun _ => Dbl.nan) 1).time
      (WithNaN.trial (rke_init 1 zero_function) WithNaN.zero_over_time 0
        (fun _ => Dbl.ofRat 0) 1 (fun _ => Dbl.nan) 1).vars
      stages_zero_eq (eq_outer_of_isOuter _ (by decide!))
      stages_nan_eq (nan_eq_outer_of_isOuter _ (by decide!))).2.1⟩

/-- C13: when a trial step with `|whole_step| > minimum_step` reached by a call
is rejected (with `minimum_step > 0` and `current_step > 0`), the call retries
from the same time and variables with `current_step` set to
`max (current_step / 2) minimum_step` and `whole_step` set to the new
`current_step` carrying the sign of `aimed_time - time`; `aimed_time` differs
from `time` and that sign is the sign of the rejected trial step, so the step
recomputed from `aimed_time` is the step that the cached sign would give. -/
theorem shrink_and_retry_rule (var : rke_variables) (time : ℚ) (vars : Vec) (aimed_time : ℚ)
    (i : Nat) (var1 : rke_variables) (time1 : ℚ) (vars1 dp : Vec) (whole_step : ℚ)
    (hc : run aimed_time i (.outer var time vars) = .inner var1 time1 vars1 dp whole_step)
    (hmin : var1.minimum_step > 0) (hcs : var1.current_step > 0)
    (hgt : |whole_step| > var1.minimum_step)
    (hrej : rejected_trial var1 time1 vars1 dp whole_step) :
    ∃ var2 whole_step2,
      run aimed_time (i + 1) (.outer var time vars) = .inner var2 time1 vars1 dp whole_step2 ∧
      var2.current_step = max (var1.current_step / 2) var1.minimum_step ∧
      whole_step2 = (if aimed_time > time1 then var2.current_step else - var2.current_step) ∧
      ((aimed_time > time1 ∧ whole_step > 0) ∨ (aimed_time < time1 ∧ whole_step < 0)) ∧
      whole_step2 = (if whole_step > 0 then var2.current_step else - var2.current_step) := by
  have hinv := run_trial_step_invariant aimed_time i (.outer var time vars) trivial
  rw [hc] at hinv
  have hdir := whole_step_direction var1 time1 aimed_time whole_step (le_of_lt hmin) hcs
    hinv.1 hinv.2
  have hgt1 : fabs whole_step > var1.minimum_step := by rw [fabs_eq_abs]; exact hgt
  have hnext : step aimed_time (.inner var1 time1 vars1 dp whole_step)
      = .inner (shrink { var1 with rejected_steps := var1.rejected_steps + 1 }) time1 vars1 dp
          (if aimed_time > time1
            then (shrink { var1 with rejected_steps := var1.rejected_steps + 1 }).current_step
            else - (shrink { var1 with rejected_steps := var1.rejected_steps + 1 }).current_step) := by
    simp only [step]
    rw [trial_of_rejected var1 time1 vars1 aimed_time dp whole_step hrej]
    unfold reject
    simp only
    rw [if_pos hgt1]
  refine ⟨_, _, by rw [run_succ_right, hc, hnext], ?_, rfl, hdir, ?_⟩
  · rw [shrink_current_step]
  · rcases hdir with ⟨h1, h2⟩ | ⟨h1, h2⟩
    · rw [if_pos h1, if_pos h2]
    · rw [if_neg (by linarith), if_neg (by linarith)]

/-- Witness of C13: on a fresh block with `pulse_function`, the first trial
step of the call from time 0 to time 1/10 has `whole_step = 1/10` and is
rejected. -/
theorem shrink_and_retry_rule_witness :
    (run (1 / 10) 1 (.outer (rke_init 1 pulse_function) 0 (fun _ => 0))).isInner = true ∧
    (run (1 / 10) 1 (.outer (rke_init 1 pulse_function) 0 (fun _ => 0))).whole_step
      = some (1 / 10) ∧
    (run (1 / 10) 2 (.outer (rke_init 1 pulse_function) 0 (fun _ => 0))).whole_step
      = some (1 / 2) ∧
    ∃ var2 whole_step2,
      run (1 / 10) (1 + 1) (.outer (rke_init 1 pulse_function) 0 (fun _ => 0))
        = .inner var2
            (run (1 / 10) 1 (.outer (rke_init 1 pulse_function) 0 (fun _ => 0))).time
            (run (1 / 10) 1 (.outer (rke_init 1 pulse_function) 0 (fun _ => 0))).vars
            (run (1 / 10) 1 (.outer (rke_init 1 pulse_function) 0 (fun _ => 0))).dp
            whole_step2 ∧
      var2.current_step
        = max ((run (1 / 10) 1 (.outer (rke_init 1 pulse_function) 0
            (fun _ => 0))).var.current_step / 2)
          (run (1 / 10) 1 (.outer (rke_init 1 pulse_function) 0
            (fun _ => 0))).var.minimum_step :=
  ⟨by decide!, by decide!, by decide!,
    (shrink_and_retry_rule (rke_init 1 pulse_function) 0 (fun _ => 0) (1 / 10) 1
      (run (1 / 10) 1 (.outer (rke_init 1 pulse_function) 0 (fun _ => 0))).var
      (run (1 / 10) 1 (.outer (rke_init 1 pulse_function) 0 (fun _ => 0))).time
      (run (1 / 10) 1 (.outer (rke_init 1 pulse_function) 0 (fun _ => 0))).vars
      (run (1 / 10) 1 (.outer (rke_init 1 pulse_function) 0 (fun _ => 0))).dp
      (((run (1 / 10) 1 (.outer (rke_init 1 pulse_function) 0
        (fun _ => 0))).whole_step).getD 0)
      (eq_inner_of_isInner _ (by decide!))
      (by decide!) (by decide!)
      (by rw [← fabs_eq_abs]; decide!)
      (rejected_trial_of_check _ _ _ _ _ (by decide!))).imp
      (fun _ h => h.imp (fun _ h2 => ⟨h2.1, h2.2.1⟩))⟩

/-- Counterexample to C14 as stated: on the block `coarse` (minimum, current and
maximum step 1, zero tolerances) with zero derivatives, the call from time 0
to time 5/4 has `2 * |aimed_time - time| > minimum_step` on entry, returns 1,
and leaves time 1, which is not `aimed_time`. -/
theorem constant_derivative_stops_short :
    (0 < (coarse zero_function).minimum_step ∧
      (coarse zero_function).minimum_step ≤ (coarse zero_function).current_step ∧
      (coarse zero_function).current_step ≤ (coarse zero_function).maximum_step ∧
      0 ≤ (coarse zero_function).error_slope ∧ 0 ≤ (coarse zero_function).error_biais) ∧
    (∀ t v, (coarse zero_function).eval_routine t v = some (fun _ => 0)) ∧
    2 * fabs (5 / 4 - 0) > (coarse zero_function).minimum_step ∧
    (rke_solve 3 (coarse zero_function) 0 (fun _ => 3) (5 / 4)).map
      (fun r => (r.ret, r.time, decide (r.time = 5 / 4))) = some (1, 1, false) :=
  ⟨by decide!, fun _ _ => rfl, by decide!, by decide!⟩

/-- C14, amended: for a problem function that always succeeds and yields the
same vector `c` whatever the time and state, and a block with
`0 < minimum_step ≤ current_step ≤ maximum_step`, `error_slope ≥ 0` and
`error_biais ≥ 0`, `rke_solve` terminates and returns success with
`rejected_steps` unchanged; the returned time is within half a minimum step of
`aimed_time` (`2 * |aimed_time - time| ≤ minimum_step`), and is the initial
time when `2 * |aimed_time - time0| ≤ minimum_step`; and every component
satisfies `variables_k = v0_k + c_k * (time - time0)`. -/
theorem constant_derivative_integration (var : rke_variables) (time : ℚ) (vars : Vec)
    (aimed_time : ℚ) (c : Vec)
    (hmin : 0 < var.minimum_step) (hlo : var.minimum_step ≤ var.current_step)
    (hhi : var.current_step ≤ var.maximum_step)
    (hslope : 0 ≤ var.error_slope) (hbiais : 0 ≤ var.error_biais)
    (hconst : ∀ t v, var.eval_routine t v = some c) :
    ∃ fuel r, rke_solve fuel var time vars aimed_time = some r ∧
      r.ret = 1 ∧ r.var.rejected_steps = var.rejected_steps ∧
      2 * |aimed_time - r.time| ≤ var.minimum_step ∧
      (2 * |aimed_time - time| ≤ var.minimum_step → r.time = time) ∧
      ∀ k : Nat, (k : Int) < var.n_equations → r.vars k = vars k + c k * (r.time - time) := by
  obtain ⟨N, hN⟩ := exists_nat_ge (|aimed_time - time| / var.minimum_step)
  have hd : |aimed_time - time| ≤ (N : ℚ) * var.minimum_step :=
    (div_le_iff₀ hmin).mp hN
  have haff : ∀ t v, var.eval_routine t v = some (fun k => c k + (0 : ℚ) * t) := by
    intro t v
    rw [hconst]
    congr 1
    funext k
    ring
  obtain ⟨fuel, var1, time1, vars1, hrun, hrej, hg, hstay, hv⟩ :=
    solve_constant aimed_time c N var time vars ⟨hmin, hlo, hhi⟩ hslope hbiais haff hd
  refine ⟨fuel, ⟨1, var1, time1, vars1⟩, ?_, rfl, hrej, ?_, ?_, hv⟩
  · unfold rke_solve
    rw [hrun]
    rfl
  · rw [← fabs_eq_abs]
    exact not_lt.mp hg
  · intro h
    apply hstay
    rw [fabs_eq_abs]
    exact not_lt.mpr h

/-- Witness of C14, amended: the block `coarse` with zero derivatives, from
time 0 to time 5/4. -/
theorem constant_derivative_integration_witness :
    (0 < (coarse zero_function).minimum_step ∧
      (coarse zero_function).minimum_step ≤ (coarse zero_function).current_step ∧
      (coarse zero_function).current_step ≤ (coarse zero_function).maximum_step ∧
      0 ≤ (coarse zero_function).error_slope ∧ 0 ≤ (coarse zero_function).error_biais) ∧
    ∃ fuel r, rke_solve fuel (coarse zero_function) 0 (fun _ => 3) (5 / 4) = some r ∧
      r.ret = 1 ∧ r.var.rejected_steps = (coarse zero_function).rejected_steps ∧
      2 * |5 / 4 - r.time| ≤ (coarse zero_function).minimum_step ∧
      (2 * |(5 / 4 : ℚ) - 0| ≤ (coarse zero_function).minimum_step → r.time = 0) ∧
      ∀ k : Nat, (k : Int) < (coarse zero_function).n_equations →
        r.vars k = (fun _ => 3) k + (fun _ => 0) k * (r.time - 0) :=
  ⟨by decide!,
    constant_derivative_integration (coarse zero_function) 0 (fun _ => 3) (5 / 4) (fun _ => 0)
      (by decide!) (by decide!) (by decide!) (by decide!) (by decide!) (fun _ _ => rfl)⟩

/-- C15: for a problem function that always succeeds, ignores the state and is
affine in time, `d_k(t) = c_k + m_k * t`, one trial step of size `h` from
`(t, v)` computes its stages, with estimated error exactly 0 in every
component and half-step estimate
`vt_k = v_k + c_k*(h/2) + m_k*(t*(h/2) + (h/2)^2/2)`; when the trial step is
accepted and committed, the time becomes `t + h` and the variables
`v_k + c_k*h + m_k*(t*h + h^2/2)`; and with non-negative tolerances it is
accepted and committed. -/
theorem affine_trial_step_exact (var : rke_variables) (time : ℚ) (vars : Vec)
    (aimed_time whole_step : ℚ) (c m : Vec)
    (haff : ∀ t v, var.eval_routine t v = some (fun k => c k + m k * t)) :
    (∃ s, stages var time vars (fun k => c k + m k * time) whole_step = some s ∧
      ∀ k : Nat, (k : Int) < var.n_equations →
        estimated_error whole_step s k = 0 ∧
        s.vt k = vars k + c k * (whole_step / 2)
          + m k * (time * (whole_step / 2) + (whole_step / 2) ^ 2 / 2)) ∧
    (∀ var1 time1 vars1,
      trial var time vars aimed_time (fun k => c k + m k * time) whole_step
        = .outer var1 time1 vars1 →
      time1 = time + whole_step ∧
      ∀ k : Nat, (k : Int) < var.n_equations →
        vars1 k = vars k + c k * whole_step
          + m k * (time * whole_step + whole_step ^ 2 / 2)) ∧
    (0 ≤ var.error_slope → 0 ≤ var.error_biais →
      (trial var time vars aimed_time (fun k => c k + m k * time) whole_step).isOuter
        = true) := by
  refine ⟨?_, ?_, ?_⟩
  · obtain ⟨s, hs, hval⟩ := stages_affine var time vars whole_step c m haff
    refine ⟨s, hs, ?_⟩
    intro k hk
    exact ⟨estimated_error_affine var time vars whole_step c m s haff hs k hk,
      (hval k hk).2.2.2.2.2.2.2⟩
  · intro var1 time1 vars1 hacc
    exact trial_affine_commit var time vars aimed_time whole_step c m var1 time1 vars1
      haff hacc
  · intro hslope hbiais
    obtain ⟨small, vars1, e, _⟩ :=
      trial_affine var time vars aimed_time whole_step c m haff hslope hbiais
    rw [e]
    rfl

/-- Witness of C15: the derivative `2 + 3 * t` on a fresh block, one trial step
of size 1 from time 0, which commits time 1 and the value `3 + 2 + 3/2`. -/
theorem affine_trial_step_exact_witness :
    (∀ t v, (rke_init 1 ramp_function).eval_routine t v = some (fun _ => 2 + 3 * t)) ∧
    (trial (rke_init 1 ramp_function) 0 (fun _ => 3) 1
      (fun _ => 2 + 3 * 0) 1).time = 1 ∧
    (trial (rke_init 1 ramp_function) 0 (fun _ => 3) 1
      (fun _ => 2 + 3 * 0) 1).vars 0 = 13 / 2 ∧
    (0 ≤ (rke_init 1 ramp_function).error_slope →
      0 ≤ (rke_init 1 ramp_function).error_biais →
      (trial (rke_init 1 ramp_function) 0 (fun _ => 3) 1
        (fun _ => 2 + 3 * 0) 1).isOuter = true) :=
  ⟨fun _ _ => rfl, by decide!, by decide!,
    (affine_trial_step_exact (rke_init 1 ramp_function) 0 (fun _ => 3) 1 1
      (fun _ => 2) (fun _ => 3) (fun _ _ => rfl)).2.2⟩

/-- Counterexample to C16 as stated: on a block with minimum, current and
maximum step 1, error slope 0 and error biais 1, the call from time 0 to time 1
with `picky_function` finds its first trial step within tolerance, adds one to
`accepted_steps`, then fails in the final derivative evaluation of line 255:
it returns 0 with time and variables as passed, and with `accepted_steps` 1
where the trial step began with 0. -/
theorem final_evaluation_failure_keeps_count :
    (block picky_function 1 1 1 1).accepted_steps = 0 ∧
    (stages (block picky_function 1 1 1 1) 0 (fun _ => 0) (fun _ => 0) 1).map
      (fun s => (error_analysis (block picky_function 1 1 1 1) 1 s).1) = some true ∧
    (rke_solve 2 (block picky_function 1 1 1 1) 0 (fun _ => 0) 1).map
      (fun r => (r.ret, r.time, r.vars 0, r.var.accepted_steps, r.var.rejected_steps,
        r.var.current_step)) = some (0, 0, 0, 1, 0, 1) := by
  decide!

/-- C16, amended: when a derivative evaluation fails during a trial step, the
call returns 0 with time, variables, `rejected_steps` and `current_step` as
they were when that trial step began; `accepted_steps` is as it was when the
failing evaluation is one of the seven stage evaluations (the whole block is
then unchanged), and is one more when the failing evaluation is the final one,
made after the trial step was found within tolerance and counted. -/
theorem derivative_failure_state (var : rke_variables) (time : ℚ) (vars : Vec)
    (aimed_time : ℚ) (dp : Vec) (whole_step : ℚ) :
    (stages var time vars dp whole_step = none →
      trial var time vars aimed_time dp whole_step = .done 0 var time vars) ∧
    (∀ s, stages var time vars dp whole_step = some s →
      (error_analysis var whole_step s).1 = true →
      var.eval_routine (time + whole_step)
        (fill var.n_equations (fun k => s.vt k + (- s.a6 k + s.a7 k + s.a7 k))) = none →
      trial var time vars aimed_time dp whole_step
        = .done 0 { var with accepted_steps := var.accepted_steps + 1 } time vars) := by
  constructor
  · intro hs
    unfold trial
    rw [hs]
  · intro s hs hw hfail
    rw [trial_of_stages var time vars aimed_time dp whole_step s hs, if_pos hw]
    unfold accept
    simp only
    rw [hfail]

/-- Witness of C16, amended: the first trial step of the call with
`picky_function` is found within tolerance and fails in its final derivative
evaluation. -/
theorem derivative_failure_state_witness :
    stages (block picky_function 1 1 1 1) 0 (fun _ => 0) (fun _ => 0) 1 = some stages_picky ∧
    (error_analysis (block picky_function 1 1 1 1) 1 stages_picky).1 = true ∧
    trial (block picky_function 1 1 1 1) 0 (fun _ => 0) 1 (fun _ => 0) 1
      = .done 0 { block picky_function 1 1 1 1 with
          accepted_steps := (block picky_function 1 1 1 1).accepted_steps + 1 } 0
          (fun _ => 0) :=
  ⟨stages_picky_eq, by decide!,
    (derivative_failure_state (block picky_function 1 1 1 1) 0 (fun _ => 0) 1 (fun _ => 0)
      1).2 stages_picky stages_picky_eq (by decide!)
      (Option.isNone_iff_eq_none.mp (by decide!))⟩

/-- Counterexample to C17 as stated: on a block with minimum step 1, maximum
step 4 and current step 2, the call from time 0 to time 3/4 with
`late_function`, which never fails, makes one trial step, truncated to 3/4,
which is rejected and not retried: it returns 0 with `current_step` still 2,
not `minimum_step`. -/
theorem convergence_failure_above_minimum_step :
    (∀ t v, (block late_function 1 4 2 0).eval_routine t v ≠ none) ∧
    (run (3 / 4) 1 (.outer (block late_function 1 4 2 0) 0 (fun _ => 0))).whole_step
      = some (3 / 4) ∧
    (rke_solve 2 (block late_function 1 4 2 0) 0 (fun _ => 0) (3 / 4)).map
      (fun r => (r.ret, r.var.rejected_steps, r.var.current_step, r.var.minimum_step))
      = some (0, 1, 2, 1) :=
  ⟨fun _ _ => Option.some_ne_none _, by decide!, by decide!⟩

/-- C17, amended: whenever a call of `rke_solve` entered with
`0 < minimum_step ≤ current_step ≤ maximum_step` reaches a trial step that is
rejected and not retried (`|whole_step| ≤ minimum_step`), it returns failure
with time, variables and `current_step` as they were at that trial step; and
`current_step` equals `minimum_step` on return unless that trial step was the
initial step of its outer iteration, truncated to `aimed_time - time`, of
magnitude below `current_step`. -/
theorem convergence_failure_step_size (var : rke_variables) (time : ℚ) (vars : Vec)
    (aimed_time : ℚ) (i : Nat) (var1 : rke_variables) (time1 : ℚ) (vars1 dp : Vec)
    (whole_step : ℚ)
    (hmin : 0 < var.minimum_step) (hlo : var.minimum_step ≤ var.current_step)
    (hhi : var.current_step ≤ var.maximum_step)
    (hc : run aimed_time i (.outer var time vars) = .inner var1 time1 vars1 dp whole_step)
    (hrej : rejected_trial var1 time1 vars1 dp whole_step)
    (hle : |whole_step| ≤ var1.minimum_step) :
    ∃ var2, rke_solve (i + 1) var time vars aimed_time = some ⟨0, var2, time1, vars1⟩ ∧
      var2.current_step = var1.current_step ∧
      var2.minimum_step = var.minimum_step ∧
      (var2.current_step = var2.minimum_step ∨
        (whole_step = aimed_time - time1 ∧ |whole_step| < var2.current_step)) := by
  have hb1 := run_bounds aimed_time i (.outer var time vars) ⟨hmin, hlo, hhi⟩
  have hf1 := run_frame aimed_time i (.outer var time vars)
  have hinv := run_trial_step_invariant aimed_time i (.outer var time vars) trivial
  rw [hc] at hb1 hf1 hinv
  obtain ⟨h0, h1, _⟩ := hb1
  simp only [Config.var] at h0 h1
  refine ⟨{ var1 with rejected_steps := var1.rejected_steps + 1 }, ?_, rfl, hf1.2.2.1, ?_⟩
  · unfold rke_solve
    rw [run_succ_right, hc,
      step_convergence_failure var1 time1 vars1 aimed_time dp whole_step hrej hle]
    rfl
  · show var1.current_step = var1.minimum_step ∨ _
    have hmag : |whole_step| = var1.current_step ∨
        (whole_step = aimed_time - time1 ∧ |whole_step| < var1.current_step) := by
      rcases hinv.2 with e | e
      · have := initial_step_magnitude var1 time1 aimed_time (le_trans (le_of_lt h0) h1)
        rw [← e, fabs_eq_abs] at this
        exact this
      · left
        rw [e]
        split
        · exact abs_of_nonneg (le_trans (le_of_lt h0) h1)
        · rw [abs_neg]; exact abs_of_nonneg (le_trans (le_of_lt h0) h1)
    rcases hmag with e | e
    · left
      rw [e] at hle
      exact le_antisymm hle h1
    · right; exact e

/-- Witness of C17, amended: the call from time 0 to time 3/4 with
`late_function` on the block with minimum step 1 and current step 2. -/
theorem convergence_failure_step_size_witness :
    (run (3 / 4) 1 (.outer (block late_function 1 4 2 0) 0 (fun _ => 0))).isInner = true ∧
    ∃ var2, rke_solve (1 + 1) (block late_function 1 4 2 0) 0 (fun _ => 0) (3 / 4)
        = some ⟨0, var2,
            (run (3 / 4) 1 (.outer (block late_function 1 4 2 0) 0 (fun _ => 0))).time,
            (run (3 / 4) 1 (.outer (block late_function 1 4 2 0) 0 (fun _ => 0))).vars⟩ ∧
      var2.current_step
        = (run (3 / 4) 1 (.outer (block late_function 1 4 2 0) 0
            (fun _ => 0))).var.current_step :=
  ⟨by decide!,
    (convergence_failure_step_size (block late_function 1 4 2 0) 0 (fun _ => 0) (3 / 4) 1
      (run (3 / 4) 1 (.outer (block late_function 1 4 2 0) 0 (fun _ => 0))).var
      (run (3 / 4) 1 (.outer (block late_function 1 4 2 0) 0 (fun _ => 0))).time
      (run (3 / 4) 1 (.outer (block late_function 1 4 2 0) 0 (fun _ => 0))).vars
      (run (3 / 4) 1 (.outer (block late_function 1 4 2 0) 0 (fun _ => 0))).dp
      (((run (3 / 4) 1 (.outer (block late_function 1 4 2 0) 0
        (fun _ => 0))).whole_step).getD 0)
      (by decide!) (by decide!) (by decide!)
      (eq_inner_of_isInner _ (by decide!))
      (rejected_trial_of_check _ _ _ _ _ (by decide!))
      (by rw [← fabs_eq_abs]; decide!)).imp (fun _ h => ⟨h.1, h.2.1⟩)⟩

/-- Counterexample to C18 as stated: with `minimum_step = 1` and
`current_step = -5`, so that `current_step ≤ 2 ^ 0 * minimum_step`, the outer
iteration entered at time 0 towards time 10 with `kick_function` makes two
rejected trial steps (steps -5 and 1) before it returns failure, more than
`0 + 1`. -/
theorem negative_current_step_two_rejections :
    ((block kick_function 1 1 (-5) 0).minimum_step > 0 ∧
      (block kick_function 1 1 (-5) 0).current_step
        ≤ 2 ^ 0 * (block kick_function 1 1 (-5) 0).minimum_step) ∧
    (run 10 1 (.outer (block kick_function 1 1 (-5) 0) 0 (fun _ => 0))).whole_step
      = some (-5) ∧
    (run 10 2 (.outer (block kick_function 1 1 (-5) 0) 0 (fun _ => 0))).whole_step
      = some 1 ∧
    (rke_solve 3 (block kick_function 1 1 (-5) 0) 0 (fun _ => 0) 10).map
      (fun r => (r.ret, r.var.accepted_steps, r.var.rejected_steps)) = some (0, 0, 2) := by
  decide!

/-- C18, amended: for `minimum_step > 0`, `current_step ≥ 0` and any natural `N`
with `current_step ≤ 2 ^ N * minimum_step` on entry to an outer iteration, and
for every problem function, the iteration leaves the `do ... while` (to the
head of the outer loop after an accepted step, or by a `return`) after at most
`N + 1` trial steps, hence at most `N + 1` rejected ones. -/
theorem retry_loop_terminates (var : rke_variables) (time : ℚ) (vars : Vec)
    (aimed_time : ℚ) (N : Nat)
    (hmin : var.minimum_step > 0) (hcs : 0 ≤ var.current_step)
    (hN : var.current_step ≤ 2 ^ N * var.minimum_step) :
    ∃ j, 1 ≤ j ∧ j ≤ N + 2 ∧
      (∀ i, 1 ≤ i → i < j →
        (run aimed_time i (.outer var time vars)).isInner = true) ∧
      (run aimed_time j (.outer var time vars)).isInner = false ∧
      (run aimed_time j (.outer var time vars)).var.rejected_steps
        ≤ var.rejected_steps + (N + 1) := by
  have hdone : ∀ c : Config, step aimed_time (.outer var time vars) = c →
      c.isInner = false → c.var = var →
      ∃ j, 1 ≤ j ∧ j ≤ N + 2 ∧
        (∀ i, 1 ≤ i → i < j →
          (run aimed_time i (.outer var time vars)).isInner = true) ∧
        (run aimed_time j (.outer var time vars)).isInner = false ∧
        (run aimed_time j (.outer var time vars)).var.rejected_steps
          ≤ var.rejected_steps + (N + 1) := by
    intro c hstep hin hvar
    refine ⟨1, le_refl 1, by omega, fun i h1 h2 => by omega, ?_, ?_⟩
    · show (step aimed_time (.outer var time vars)).isInner = false
      rw [hstep]; exact hin
    · show (step aimed_time (.outer var time vars)).var.rejected_steps ≤ _
      rw [hstep, hvar]
      omega
  by_cases hg : 2 * fabs (aimed_time - time) > var.minimum_step
  · cases he : var.eval_routine time vars with
    | none =>
      exact hdone (.done 0 var time vars) (by simp only [step, if_pos hg, he]) rfl rfl
    | some dp =>
      have hstep : step aimed_time (.outer var time vars)
          = .inner var time vars dp (initial_step var time aimed_time) := by
        simp only [step, if_pos hg, he]
      have hws : fabs (initial_step var time aimed_time) ≤ var.current_step := by
        rcases initial_step_magnitude var time aimed_time hcs with e | e
        · exact le_of_eq e
        · exact le_of_lt e.2
      obtain ⟨j, hj1, hj2, hin, hout, hcount⟩ :=
        inner_exits aimed_time N var time vars dp (initial_step var time aimed_time)
          hmin hws hN
      refine ⟨j + 1, by omega, by omega, ?_, ?_, ?_⟩
      · intro i h1 h2
        obtain ⟨i, rfl⟩ : ∃ i0, i = i0 + 1 := ⟨i - 1, by omega⟩
        show (run aimed_time i (step aimed_time (.outer var time vars))).isInner = true
        rw [hstep]
        exact hin i (by omega)
      · show (run aimed_time j (step aimed_time (.outer var time vars))).isInner = false
        rw [hstep]
        exact hout
      · show (run aimed_time j (step aimed_time (.outer var time vars))).var.rejected_steps ≤ _
        rw [hstep]
        have hcount1 : (run aimed_time j (.inner var time vars dp
            (initial_step var time aimed_time))).var.rejected_steps
            ≤ var.rejected_steps + j := hcount
        omega
  · exact hdone (.done 1 var time vars) (by simp only [step, if_neg hg]) rfl rfl

/-- Witness of C18, amended: a fresh block has `current_step = 1`, which is at
most `2 ^ 20` times its `minimum_step`. -/
theorem retry_loop_terminates_witness :
    ((rke_init 1 pulse_function).minimum_step > 0 ∧
      0 ≤ (rke_init 1 pulse_function).current_step ∧
      (rke_init 1 pulse_function).current_step
        ≤ 2 ^ 20 * (rke_init 1 pulse_function).minimum_step) ∧
    ∃ j, 1 ≤ j ∧ j ≤ 20 + 2 ∧
      (∀ i, 1 ≤ i → i < j →
        (run (1 / 10) i (.outer (rke_init 1 pulse_function) 0 (fun _ => 0))).isInner = true) ∧
      (run (1 / 10) j (.outer (rke_init 1 pulse_function) 0 (fun _ => 0))).isInner = false ∧
      (run (1 / 10) j (.outer (rke_init 1 pulse_function) 0 (fun _ => 0))).var.rejected_steps
        ≤ (rke_init 1 pulse_function).rejected_steps + (20 + 1) :=
  ⟨by decide!,
    retry_loop_terminates (rke_init 1 pulse_function) 0 (fun _ => 0) (1 / 10) 20
      (by decide!) (by decide!) (by decide!)⟩

/-- C19: a committed step can overshoot the target.  With `pulse_function`,
which never fails and is non-zero only at time 1/20, on a fresh block
(`current_step = 1`), from time 0 towards time 1/10: the first trial step is
truncated to `aimed_time - time = 1/10` and is rejected; the retry uses the
halved `current_step = 1/2`, which exceeds `|aimed_time - time|`; it is
accepted and commits time 1/2, strictly beyond `aimed_time`. -/
theorem retried_step_overshoots :
    (∀ t v, pulse_function t v ≠ none) ∧
    (rke_init 1 pulse_function).current_step = 1 ∧
    (run (1 / 10) 1 (.outer (rke_init 1 pulse_function) 0 (fun _ => 0))).whole_step
      = some (1 / 10) ∧
    rejected_trial
      (run (1 / 10) 1 (.outer (rke_init 1 pulse_function) 0 (fun _ => 0))).var
      (run (1 / 10) 1 (.outer (rke_init 1 pulse_function) 0 (fun _ => 0))).time
      (run (1 / 10) 1 (.outer (rke_init 1 pulse_function) 0 (fun _ => 0))).vars
      (run (1 / 10) 1 (.outer (rke_init 1 pulse_function) 0 (fun _ => 0))).dp
      (1 / 10) ∧
    (run (1 / 10) 2 (.outer (rke_init 1 pulse_function) 0 (fun _ => 0))).whole_step
      = some (1 / 2) ∧
    (run (1 / 10) 2 (.outer (rke_init 1 pulse_function) 0 (fun _ => 0))).var.current_step
      = 1 / 2 ∧
    (1 / 2 : ℚ) > fabs (1 / 10 - 0) ∧
    (run (1 / 10) 3 (.outer (rke_init 1 pulse_function) 0 (fun _ => 0))).isOuter = true ∧
    (run (1 / 10) 3 (.outer (rke_init 1 pulse_function) 0 (fun _ => 0))).var.accepted_steps
      = 1 ∧
    (run (1 / 10) 3 (.outer (rke_init 1 pulse_function) 0 (fun _ => 0))).time = 1 / 2 ∧
    (run (1 / 10) 3 (.outer (rke_init 1 pulse_function) 0 (fun _ => 0))).time > 1 / 10 :=
  ⟨fun _ _ => Option.some_ne_none _, by decide!, by decide!,
    rejected_trial_of_check _ _ _ _ _ (by decide!),
    by decide!, by decide!, by decide!, by decide!, by decide!, by decide!, by decide!⟩

/-- Counterexample to C20 as stated: on a block with zero tolerances, minimum
step 1, current step 2 and maximum step 4, the trial step of size 2 with zero
derivatives has `err_0 = 0 = 0.02 * tol_0`, is accepted, and grows
`current_step` from 2 to 4. -/
theorem tie_grows_current_step :
    (block zero_function 1 4 2 0).current_step = 2 ∧
    (stages (block zero_function 1 4 2 0) 0 (fun _ => 3) (fun _ => 0) 2).map
      (fun s => (estimated_error 2 s 0, 0.02 * allowable_error (block zero_function 1 4 2 0) 2 s 0,
        error_analysis (block zero_function 1 4 2 0) 2 s)) = some (0, 0, true, true) ∧
    (trial (block zero_function 1 4 2 0) 0 (fun _ => 3) 10 (fun _ => 0) 2).isOuter = true ∧
    (trial (block zero_function 1 4 2 0) 0 (fun _ => 3) 10 (fun _ => 0) 2).var.current_step
      = 4 := by
  decide!

/-- C20, amended: a component counts as comfortably small when its estimated
error is at most 2% of its allowable error (it is not small only when strictly
above): for a trial step found within tolerance, `all_errors_small` is set
exactly when every component has `err_k ≤ 0.02 * tol_k`; so an accepted and
committed trial step in which every component has `err_k` exactly equal to
`0.02 * tol_k`, and with `|whole_step|` equal to `current_step`, grows
`current_step` to `min (2 * current_step) maximum_step`. -/
theorem all_errors_small_rule (var : rke_variables) (time : ℚ) (vars : Vec) (aimed_time : ℚ)
    (dp : Vec) (whole_step : ℚ) (s : Stages) (var1 : rke_variables) (time1 : ℚ) (vars1 : Vec)
    (hs : stages var time vars dp whole_step = some s)
    (hacc : trial var time vars aimed_time dp whole_step = .outer var1 time1 vars1) :
    ((error_analysis var whole_step s).2 = true ↔
      ∀ k : Nat, (k : Int) < var.n_equations →
        estimated_error whole_step s k ≤ 0.02 * allowable_error var whole_step s k) ∧
    ((∀ k : Nat, (k : Int) < var.n_equations →
        estimated_error whole_step s k = 0.02 * allowable_error var whole_step s k) →
      |whole_step| = var.current_step →
      var1.current_step = min (2 * var.current_step) var.maximum_step) := by
  obtain ⟨hw, hv, _, _⟩ :=
    trial_committed var time vars aimed_time dp whole_step s var1 time1 vars1 hs hacc
  have hsmall : (error_analysis var whole_step s).2 = true ↔
      ∀ k : Nat, (k : Int) < var.n_equations →
        estimated_error whole_step s k ≤ 0.02 * allowable_error var whole_step s k := by
    rw [error_analysis_small var whole_step s hw]
    constructor
    · intro h k hk; exact not_lt.mp (h k hk)
    · intro h k hk; exact not_lt.mpr (h k hk)
  refine ⟨hsmall, ?_⟩
  intro htie heq
  rw [hv, grow_current_step, if_pos ⟨hsmall.mpr (fun k hk => le_of_eq (htie k hk)), heq⟩]

/-- Witness of C20, amended: the trial step of size 2 with zero derivatives on
the block with zero tolerances and current step 2. -/
theorem all_errors_small_rule_witness :
    stages (block zero_function 1 4 2 0) 0 (fun _ => 3) (fun _ => 0) 2 = some stages_tie ∧
    (trial (block zero_function 1 4 2 0) 0 (fun _ => 3) 10 (fun _ => 0) 2).isOuter = true ∧
    ((error_analysis (block zero_function 1 4 2 0) 2 stages_tie).2 = true ↔
      ∀ k : Nat, (k : Int) < (block zero_function 1 4 2 0).n_equations →
        estimated_error 2 stages_tie k
          ≤ 0.02 * allowable_error (block zero_function 1 4 2 0) 2 stages_tie k) :=
  ⟨stages_tie_eq, by decide!,
    (all_errors_small_rule (block zero_function 1 4 2 0) 0 (fun _ => 3) 10 (fun _ => 0) 2
      stages_tie
      (trial (block zero_function 1 4 2 0) 0 (fun _ => 3) 10 (fun _ => 0) 2).var
      (trial (block zero_function 1 4 2 0) 0 (fun _ => 3) 10 (fun _ => 0) 2).time
      (trial (block zero_function 1 4 2 0) 0 (fun _ => 3) 10 (fun _ => 0) 2).vars
      stages_tie_eq (eq_outer_of_isOuter _ (by decide!))).1⟩

end RKE
